import Mathlib

/-!
# Delay queue dispatcher (package pqueue, file delayQueue.go) and timer helper (utils.go)

A shallow embedding of the dispatcher of the delay queue: the timer re-arm
primitive `refreshTimer`, the insertion handler `handleOffer`, the timer-fire
handler `handleTimeout`, and the `run` loop with its `select` over the stop
channel, the offer channel and the timer channel; and of the helpers of `utils.go`:
`truncate`, `timeToMs`, `msToTime` and the free function `refreshTimer`.

Conventions of the embedding.

* `int64` values are integers; every arithmetic operation that can leave the
  `int64` range is followed by `wrapInt64` (two-complement wraparound).
* The injected clock `nowFunc func() int64` is a function `Nat → Int`: `nowFunc n`
  is the value returned by call number `n` of the clock. The state counts the
  calls made so far in the field `tick`.
* The output channel `expireCh` is represented by the sequence of all items sent
  to it so far (the consumer is assumed to drain it).
* The single-shot `time.Timer` is a three-valued state: stopped with an empty
  channel, armed, or fired with the notification still buffered in `t.C`.
-/

namespace DelayWheel

/-! ## Machine integers -/

/-- Two-complement wraparound of an integer into the `int64` range. -/
def wrapInt64 (x : Int) : Int := (x + 2 ^ 63) % 2 ^ 64 - 2 ^ 63

/-- The largest `int64`. -/
def maxInt64 : Int := 2 ^ 63 - 1

/-- The smallest `int64`. -/
def minInt64 : Int := -(2 ^ 63)

/-- The value lies in the `int64` range. -/
def isInt64 (x : Int) : Prop := minInt64 ≤ x ∧ x ≤ maxInt64

instance (x : Int) : Decidable (isInt64 x) := by
  unfold isInt64; exact inferInstance

/-- The subtraction `expireTime - now` performed by `refreshTimer` stays inside
`int64`, so that the wrapped difference is the mathematical one. -/
def NoWrap (expireTime now : Int) : Prop := isInt64 (expireTime - now)

instance (e n : Int) : Decidable (NoWrap e n) := by
  unfold NoWrap; exact inferInstance

/-- The constant `time.Millisecond`, a `time.Duration` counted in nanoseconds. -/
def Millisecond : Int := 1000000

/-! ## Items -/

/-- An item of the queue: a value implementing `Delayer`. The field `id` stands for
the payload that distinguishes items, `expiration` is what `Expiration()` returns. -/
structure Item where
  id : Nat
  expiration : Int
  deriving DecidableEq, Repr

/-- The method `Expiration()` of the interface `Delayer`. -/
def Item.Expiration (i : Item) : Int := i.expiration

/-- The comparator `delayerLess`. -/
def delayerLess (i j : Item) : Bool := decide (i.Expiration < j.Expiration)

/-! ## Priority queue -/

/-- Modelled from the spec: the type `PriorityQueue` with `NewPriorityQueue`,
`Push`, `Pop`, `Peek` and `Len` is used by `delayQueue.go` but its source file is
not available. The spec describes it as a comparator-ordered min-heap holding a
multiset of items, `Peek` and `Pop` returning a minimum, ties broken arbitrarily.
It is modelled as the list of stored items; the comparator is always `delayerLess`,
the one `NewDelayQueue` passes. -/
structure PriorityQueue where
  items : List Item
  deriving DecidableEq, Repr

/-- Modelled from the spec: `NewPriorityQueue(less, size)`, an empty queue; the
capacity hint only preallocates storage. -/
def NewPriorityQueue (_size : Nat) : PriorityQueue := ⟨[]⟩

namespace PriorityQueue

/-- Modelled from the spec: `Len()`, the current count. -/
def Len (pq : PriorityQueue) : Nat := pq.items.length

/-- Modelled from the spec: `Push(item)`, insert, no failure condition. -/
def Push (pq : PriorityQueue) (item : Item) : PriorityQueue := ⟨item :: pq.items⟩

/-- Modelled from the spec: helper of `Peek`, a minimum of `m :: l` under
`delayerLess`; among equal expirations the first candidate is kept, the spec leaves
the choice open. -/
def minOf : Item → List Item → Item
  | m, [] => m
  | m, x :: xs => if delayerLess x m then minOf x xs else minOf m xs

/-- Modelled from the spec: `Peek()`, the minimum without removing it. The
precondition `Len() > 0` of the source is made explicit by the `Option`. -/
def Peek (pq : PriorityQueue) : Option Item :=
  match pq.items with
  | [] => none
  | x :: xs => some (minOf x xs)

/-- Modelled from the spec: `Pop()`, remove and return the minimum. -/
def Pop (pq : PriorityQueue) : Option (Item × PriorityQueue) :=
  match pq.Peek with
  | none => none
  | some m => some (m, ⟨pq.items.erase m⟩)

end PriorityQueue

/-! ## Timer -/

/-- The state of the single-shot `time.Timer` owned by the queue.

* `stopped`: not armed, nothing buffered in the channel `C`;
* `armed target d`: `Reset(d)` was called and the timer has not fired yet; `d` is
  the duration in nanoseconds, `target` records the expiration the timer was
  re-armed for (bookkeeping of the embedding, the Go timer only knows `d`);
* `fired`: the timer expired and its notification is buffered in `C`. -/
inductive Timer where
  | stopped
  | armed (target : Int) (d : Int)
  | fired
  deriving DecidableEq, Repr

namespace Timer

/-- The method `Stop()`: reports whether the call stopped an armed timer. -/
def Stop : Timer → Bool × Timer
  | armed _ _ => (true, stopped)
  | fired => (false, fired)
  | stopped => (false, stopped)

/-- The non-blocking receive `select { case <-t.C: default: }`. -/
def drain : Timer → Timer
  | fired => stopped
  | t => t

/-- The method `Reset(d)`; `target` is the bookkeeping field of `armed`. -/
def Reset (_t : Timer) (target d : Int) : Timer := armed target d

/-- The timer is armed. -/
def isArmed : Timer → Bool
  | armed _ _ => true
  | _ => false

/-- A wakeup of the dispatcher is on its way: the timer is armed, or it has fired
and the notification is still pending in the channel. -/
def live : Timer → Bool
  | stopped => false
  | _ => true

end Timer

/-- The free function `refreshTimer(t, now, expireTime)` of `utils.go`. -/
def refreshTimer (t : Timer) (now expireTime : Int) : Bool × Timer :=
  let r := t.Stop
  let t1 := if !r.1 then r.2.drain else r.2
  let deltaMs := wrapInt64 (expireTime - now)
  if deltaMs ≤ 0 then (false, t1)
  else (true, t1.Reset expireTime (wrapInt64 (deltaMs * Millisecond)))

/-! ## Delay queue -/

/-- The struct `delayQueue`, as far as the dispatcher uses it: the heap `pq`, the
timer `t`, the number `tick` of clock calls made so far, and `expireCh`, the
sequence of items sent to the output channel so far. -/
structure delayQueue where
  pq : PriorityQueue
  t : Timer
  tick : Nat
  expireCh : List Item
  deriving DecidableEq, Repr

/-- The constructor `NewDelayQueue`: empty heap, a timer that was created and
stopped at once, nothing delivered. -/
def NewDelayQueue (size : Nat) : delayQueue :=
  { pq := NewPriorityQueue size, t := (Timer.armed 0 (24 * 3600 * 1000000000)).Stop.2,
    tick := 0, expireCh := [] }

namespace delayQueue

/-- The method `Len()`. -/
def Len (dq : delayQueue) : Nat := dq.pq.Len

/-- The method `refreshTimer(expireTime)`. -/
def refreshTimer (nowFunc : Nat → Int) (dq : delayQueue) (expireTime : Int) :
    Bool × delayQueue :=
  let r := dq.t.Stop
  let t1 := if !r.1 then r.2.drain else r.2
  let delta := wrapInt64 (expireTime - nowFunc dq.tick)
  let dq1 := { dq with t := t1, tick := dq.tick + 1 }
  if delta ≤ 0 then (false, dq1)
  else (true, { dq1 with t := t1.Reset expireTime (wrapInt64 (delta * Millisecond)) })

/-- The method `handleOffer(item)`. -/
def handleOffer (nowFunc : Nat → Int) (dq : delayQueue) (item : Item) : delayQueue :=
  let oldLen := dq.Len
  let topExp : Int :=
    if oldLen > 0 then
      match dq.pq.Peek with
      | some top => top.Expiration
      | none => 0
    else 0
  let dq1 := { dq with pq := dq.pq.Push item }
  if item.Expiration < topExp ∨ oldLen = 0 then
    (dq1.refreshTimer nowFunc item.Expiration).2
  else dq1

/-- The loop of `handleTimeout`, bounded by `fuel` iterations. -/
def handleTimeoutLoop (nowFunc : Nat → Int) : Nat → delayQueue → delayQueue
  | 0, dq => dq
  | fuel + 1, dq =>
    if dq.pq.Len > 0 then
      match dq.pq.Peek with
      | none => dq
      | some top =>
        let r := dq.refreshTimer nowFunc top.Expiration
        if r.1 then r.2
        else
          match r.2.pq.Pop with
          | none => r.2
          | some (expired, rest) =>
            handleTimeoutLoop nowFunc fuel
              { r.2 with pq := rest, expireCh := r.2.expireCh ++ [expired] }
    else dq

/-- The method `handleTimeout()`. Every iteration that continues removes one item,
so `Len()` iterations always suffice (see `handleTimeoutLoop_fuel`). -/
def handleTimeout (nowFunc : Nat → Int) (dq : delayQueue) : delayQueue :=
  handleTimeoutLoop nowFunc dq.pq.Len dq

end delayQueue

/-- The items sent to the output channel between the states `before` and `after`. -/
def emitted (before after : delayQueue) : List Item :=
  after.expireCh.drop before.expireCh.length

/-! ## Dispatcher steps on the queue state

The steps that change the heap, the timer or the output: `handleOffer` of an item
received from the offer channel, the expiry of the armed timer (performed by the
runtime, at any moment chosen by it), and `handleTimeout` after the loop received
the notification of the fired timer (the receive empties the channel `t.C`). -/

/-- The states reachable from a fresh queue. `Reach nowFunc ok offered dq`: the
dispatcher can be in state `dq` after having handled exactly the offers `offered`
(in this order); `ok dq item` restricts which items may be offered in which state. -/
inductive Reach (nowFunc : Nat → Int) (ok : delayQueue → Item → Prop) :
    List Item → delayQueue → Prop
  | fresh (size : Nat) : Reach nowFunc ok [] (NewDelayQueue size)
  | offer {offered : List Item} {dq : delayQueue} (item : Item) :
      Reach nowFunc ok offered dq → ok dq item →
      Reach nowFunc ok (offered ++ [item]) (dq.handleOffer nowFunc item)
  | fire {offered : List Item} {dq : delayQueue} :
      Reach nowFunc ok offered dq → dq.t.isArmed = true →
      Reach nowFunc ok offered { dq with t := Timer.fired }
  | timeout {offered : List Item} {dq : delayQueue} :
      Reach nowFunc ok offered dq → dq.t = Timer.fired →
      Reach nowFunc ok offered (delayQueue.handleTimeout nowFunc { dq with t := Timer.stopped })

/-- No restriction on the offered items. -/
def anyOffer : delayQueue → Item → Prop := fun _ _ => True

/-- The expiration of the offered item minus any clock value fits `int64`. -/
def noWrapOffer (nowFunc : Nat → Int) : delayQueue → Item → Prop :=
  fun _ item => ∀ n, NoWrap item.Expiration (nowFunc n)

/-- The re-arm of `handleOffer` succeeds: the expiration of the offered item minus
any clock value fits `int64`, and when `handleOffer` calls `refreshTimer` for the
item (the heap is empty or the item expires before the minimum), the clock value
read by that call is strictly before the expiration of the item. An offer that does
not read the clock is not restricted otherwise. -/
def armingOffer (nowFunc : Nat → Int) : delayQueue → Item → Prop :=
  fun dq item =>
    (∀ n, NoWrap item.Expiration (nowFunc n)) ∧
    ((dq.Len = 0 ∨ ∃ top, dq.pq.Peek = some top ∧ item.Expiration < top.Expiration) →
      nowFunc dq.tick < item.Expiration)

/-- The item is offered while the clock is strictly before its expiration, and
its expiration minus any clock value fits `int64`. -/
def futureOffer (nowFunc : Nat → Int) : delayQueue → Item → Prop :=
  fun dq item => nowFunc dq.tick < item.Expiration ∧ ∀ n, NoWrap item.Expiration (nowFunc n)

/-! ## The loop `run` and the channels

The goroutine started by `Start()` executes `run`: a `select` over the stop
channel, the offer channel and the timer channel. Producers call `Offer` and
`Stop`, which send on channels of capacity 1. A send completes when the buffer has
room and blocks otherwise; `select` takes any one of the ready cases. -/

/-- Where the goroutines of `run` are. `notStarted`: `Start()` was never called;
`running`: at least one goroutine executes `run`; `exited`: every goroutine that
executed `run` has returned. -/
inductive LoopState where
  | notStarted
  | running
  | exited
  deriving DecidableEq, Repr

/-- The queue together with its channels: `stopCh` counts the signals buffered in
the stop channel (capacity 1), `offerCh` is the buffer of the offer channel
(capacity 1). `Start()` is an unguarded `go dq.run()`: it may be called again while
a loop runs or after it has returned; `spare` counts the goroutines that execute
`run` besides the first one. -/
structure System where
  dq : delayQueue
  stopCh : Nat
  offerCh : Option Item
  loop : LoopState
  spare : Nat := 0
  deriving DecidableEq, Repr

/-- The queue returned by `NewDelayQueue`, before `Start()`. -/
def System.fresh (size : Nat) : System :=
  { dq := NewDelayQueue size, stopCh := 0, offerCh := none, loop := LoopState.notStarted }

/-- The actions of the goroutines and of the runtime. -/
inductive Action where
  | callStart
  | callStop
  | callOffer (item : Item)
  | timerFire
  | selectStop
  | selectOffer
  | selectTimeout
  deriving DecidableEq, Repr

/-- One action; `none` when the action cannot happen in this state: a send on a
full channel (the caller stays blocked), a `select` case that is not ready, a
timer that is not armed, a loop that is not running. `Start()` always succeeds and
launches one more goroutine; the stop case of `select` makes one goroutine return.
The handlers of the goroutines are taken as atomic steps. -/
def System.step (nowFunc : Nat → Int) : Action → System → Option System
  | Action.callStart, s =>
    if s.loop = LoopState.running then some { s with spare := s.spare + 1 }
    else some { s with loop := LoopState.running, spare := 0 }
  | Action.callStop, s =>
    if s.stopCh < 1 then some { s with stopCh := s.stopCh + 1 } else none
  | Action.callOffer item, s =>
    match s.offerCh with
    | none => some { s with offerCh := some item }
    | some _ => none
  | Action.timerFire, s =>
    if s.dq.t.isArmed then some { s with dq := { s.dq with t := Timer.fired } } else none
  | Action.selectStop, s =>
    if s.loop = LoopState.running ∧ 0 < s.stopCh then
      if 0 < s.spare then some { s with stopCh := s.stopCh - 1, spare := s.spare - 1 }
      else some { s with stopCh := s.stopCh - 1, loop := LoopState.exited }
    else none
  | Action.selectOffer, s =>
    if s.loop = LoopState.running then
      match s.offerCh with
      | some nOffer => some { s with offerCh := none, dq := s.dq.handleOffer nowFunc nOffer }
      | none => none
    else none
  | Action.selectTimeout, s =>
    if s.loop = LoopState.running ∧ s.dq.t = Timer.fired then
      some { s with dq := delayQueue.handleTimeout nowFunc { s.dq with t := Timer.stopped } }
    else none

/-- A sequence of actions; `none` when one of them cannot happen. -/
def System.run (nowFunc : Nat → Int) : List Action → System → Option System
  | [], s => some s
  | a :: as, s =>
    match System.step nowFunc a s with
    | some s1 => System.run nowFunc as s1
    | none => none

/-! ## Example data -/

/-- Item A of the scenario of the spec, expiring at 1100. -/
def itemA : Item := ⟨1, 1100⟩

/-- Item B of the scenario of the spec, expiring at 1050. -/
def itemB : Item := ⟨2, 1050⟩

/-- The clock of the scenario of the spec: 1000 while A and B are offered, 1050
during the first timer wakeup (two reads), 1100 afterwards. -/
def scenarioClock : Nat → Int :=
  fun n => if n < 2 then 1000 else if n < 4 then 1050 else 1100

/-! ## Invariants -/

/-- The invariant behind the delivery order. `sorted`: what was sent is sorted by
expiration; `past`: every sent item is due at the next clock read; `noWrap`: the
subtraction of `refreshTimer` cannot wrap for an item of the heap; `ahead`: while
a wakeup is on its way, no item of the heap expires before a sent item; `stuck`:
when no wakeup is on its way and the heap is not empty, the heap holds an item
that is already due. -/
structure OrderInv (nowFunc : Nat → Int) (dq : delayQueue) : Prop where
  sorted : dq.expireCh.Pairwise (fun a b => a.Expiration ≤ b.Expiration)
  past : ∀ d ∈ dq.expireCh, d.Expiration ≤ nowFunc dq.tick
  noWrap : ∀ h ∈ dq.pq.items, ∀ n, NoWrap h.Expiration (nowFunc n)
  ahead : dq.t.live = true →
    ∀ h ∈ dq.pq.items, ∀ d ∈ dq.expireCh, d.Expiration ≤ h.Expiration
  stuck : dq.t.live = false → dq.pq.items ≠ [] →
    ∃ h ∈ dq.pq.items, h.Expiration ≤ nowFunc dq.tick

/-- The invariant of the loop of `handleTimeout` that yields `OrderInv` at its exit. -/
structure LoopInv (nowFunc : Nat → Int) (dq : delayQueue) : Prop where
  sorted : dq.expireCh.Pairwise (fun a b => a.Expiration ≤ b.Expiration)
  past : ∀ d ∈ dq.expireCh, d.Expiration ≤ nowFunc dq.tick
  noWrap : ∀ h ∈ dq.pq.items, ∀ n, NoWrap h.Expiration (nowFunc n)
  ahead : ∀ h ∈ dq.pq.items, ∀ d ∈ dq.expireCh, d.Expiration ≤ h.Expiration

/-- The clock of the counterexample to the delivery order: -10, then -1 three
times, then 100. -/
def negativeClock : Nat → Int :=
  fun n => if n = 0 then -10 else if n < 4 then -1 else 100

/-- The clock of the counterexample to completeness: -1 at the first read, the
largest `int64` afterwards. -/
def jumpClock : Nat → Int :=
  fun n => if n = 0 then -1 else maxInt64

/-- The clock of the shutdown counterexample: 1000 at the first read, 1100
afterwards. -/
def stopClock : Nat → Int :=
  fun n => if n = 0 then 1000 else 1100


/-! ## Helpers of utils.go -/

/-- The function `truncate(x, m)`: `x - x%m`, where `%` is the remainder of the
division that truncates toward zero. -/
def truncate (x m : Int) : Int :=
  if m ≤ 0 then x else wrapInt64 (x - Int.tmod x m)

/-- A `time.Time`, represented by the count `UnixNano()` of nanoseconds since the
epoch, an `int64`. -/
structure Time where
  unixNano : Int
  deriving DecidableEq, Repr

/-- The function `timeToMs(t)`: `t.UnixNano() / int64(time.Millisecond)`, where `/`
truncates toward zero. -/
def timeToMs (t : Time) : Int := Int.tdiv t.unixNano Millisecond

/-- The function `msToTime(t)`: `time.Unix(0, t*int64(time.Millisecond)).UTC()`, the
product being computed in `int64`. -/
def msToTime (t : Int) : Time := ⟨wrapInt64 (t * Millisecond)⟩

/-! ## Public operations

What a caller of the interface `DelayQueue` executes on its own goroutine. -/

/-- The method `Offer(item)`: a send on the offer channel; `none` while the buffer
is full and the caller stays blocked. -/
def System.Offer (s : System) (item : Item) : Option System :=
  match s.offerCh with
  | none => some { s with offerCh := some item }
  | some _ => none

/-- The method `Stop()`: a send on the stop channel; `none` while the buffer is full. -/
def System.Stop (s : System) : Option System :=
  if s.stopCh < 1 then some { s with stopCh := s.stopCh + 1 } else none

/-- The method `Start()`: `go dq.run()`, which always succeeds and launches one more
goroutine executing `run`. -/
def System.Start (s : System) : Option System :=
  if s.loop = LoopState.running then some { s with spare := s.spare + 1 }
  else some { s with loop := LoopState.running, spare := 0 }

/-- The method `ExpiredCh()`: hands out the output channel, represented by what was
sent to it. -/
def System.ExpiredCh (s : System) : List Item := s.dq.expireCh

/-- The method `Len()`: `dq.pq.Len()`, evaluated by the caller. -/
def System.Len (s : System) : Nat := s.dq.Len

/-- What lies outside the heap and the timer: the two input channels, the state of
the loop and the output channel. -/
def System.outside (s : System) : Nat × Option Item × LoopState × List Item :=
  (s.stopCh, s.offerCh, s.loop, s.dq.expireCh)

/-- The clock of the run with two equal expirations: 1000 at the first read, 1100
afterwards. -/
def equalClock : Nat → Int :=
  fun n => if n = 0 then 1000 else 1100

/-- The clock of the counterexample to the deadline bound: constantly
`2 ^ 62 + 10 ^ 13`. -/
def lateClock : Nat → Int :=
  fun _ => 2 ^ 62 + 10 ^ 13

/-! # Theorems -/

/-! ## Basic facts -/

theorem wrapInt64_of_isInt64 {x : Int} (h : isInt64 x) : wrapInt64 x = x := by
  unfold isInt64 minInt64 maxInt64 at h
  unfold wrapInt64
  rw [Int.emod_eq_of_lt (by omega) (by omega)]
  omega

theorem wrapInt64_isInt64 (x : Int) : isInt64 (wrapInt64 x) := by
  unfold isInt64 minInt64 maxInt64 wrapInt64
  have h1 := Int.emod_nonneg (x + 2 ^ 63) (show (2 : Int) ^ 64 ≠ 0 by norm_num)
  have h2 := Int.emod_lt_of_pos (x + 2 ^ 63) (show (0 : Int) < 2 ^ 64 by norm_num)
  constructor <;> omega

namespace PriorityQueue

theorem minOf_mem (m : Item) (l : List Item) : minOf m l ∈ m :: l := by
  induction l generalizing m with
  | nil => simp [minOf]
  | cons x xs ih =>
    unfold minOf
    split
    · have := ih x
      simp only [List.mem_cons] at this ⊢
      tauto
    · have := ih m
      simp only [List.mem_cons] at this ⊢
      tauto

theorem minOf_le (m : Item) (l : List Item) :
    ∀ y ∈ m :: l, (minOf m l).Expiration ≤ y.Expiration := by
  induction l generalizing m with
  | nil => intro y hy; simp at hy; subst hy; simp [minOf]
  | cons x xs ih =>
    intro y hy
    unfold minOf
    split
    · rename_i hlt
      simp only [delayerLess, decide_eq_true_eq] at hlt
      have h1 := ih x
      rcases List.mem_cons.1 hy with rfl | hy
      · exact le_trans (h1 x (List.mem_cons_self _ _)) (le_of_lt hlt)
      · exact h1 y hy
    · rename_i hlt
      simp only [delayerLess, decide_eq_true_eq, not_lt] at hlt
      have h1 := ih m
      rcases List.mem_cons.1 hy with rfl | hy
      · exact h1 _ (List.mem_cons_self _ _)
      · rcases List.mem_cons.1 hy with rfl | hy
        · exact le_trans (h1 m (List.mem_cons_self _ _)) hlt
        · exact h1 y (List.mem_cons_of_mem _ hy)

theorem Peek_eq_none_iff (pq : PriorityQueue) : pq.Peek = none ↔ pq.items = [] := by
  unfold Peek
  split <;> simp_all

theorem Peek_isSome_of_Len_pos {pq : PriorityQueue} (h : pq.Len > 0) :
    ∃ m, pq.Peek = some m := by
  cases hp : pq.Peek with
  | some m => exact ⟨m, rfl⟩
  | none =>
    rw [Peek_eq_none_iff] at hp
    simp [Len, hp] at h

theorem Peek_mem {pq : PriorityQueue} {m : Item} (h : pq.Peek = some m) : m ∈ pq.items := by
  unfold Peek at h
  split at h
  · simp at h
  · rename_i x xs hx
    simp only [Option.some.injEq] at h
    rw [hx, ← h]
    exact minOf_mem x xs

theorem Peek_le {pq : PriorityQueue} {m : Item} (h : pq.Peek = some m) :
    ∀ y ∈ pq.items, m.Expiration ≤ y.Expiration := by
  unfold Peek at h
  split at h
  · simp at h
  · rename_i x xs hx
    simp only [Option.some.injEq] at h
    rw [hx, ← h]
    exact minOf_le x xs

theorem Pop_eq_some {pq : PriorityQueue} {m : Item} (h : pq.Peek = some m) :
    pq.Pop = some (m, ⟨pq.items.erase m⟩) := by
  simp [Pop, h]

theorem Pop_perm {pq rest : PriorityQueue} {m : Item} (h : pq.Pop = some (m, rest)) :
    pq.Peek = some m ∧ List.Perm pq.items (m :: rest.items) := by
  unfold Pop at h
  split at h
  · simp at h
  · rename_i m1 hm
    simp only [Option.some.injEq, Prod.mk.injEq] at h
    obtain ⟨rfl, rfl⟩ := h
    exact ⟨hm, List.perm_cons_erase (Peek_mem hm)⟩

end PriorityQueue

namespace Timer

theorem stop_drain (t : Timer) :
    (if !t.Stop.1 then t.Stop.2.drain else t.Stop.2) = Timer.stopped := by
  cases t <;> rfl

end Timer

namespace delayQueue

theorem refreshTimer_fst (nowFunc : Nat → Int) (dq : delayQueue) (e : Int) :
    (dq.refreshTimer nowFunc e).1 = decide (0 < wrapInt64 (e - nowFunc dq.tick)) := by
  unfold refreshTimer
  simp only [Timer.stop_drain]
  split
  · rename_i h; simp [not_lt.2 h]
  · rename_i h; simp [not_le.1 h]

theorem refreshTimer_snd (nowFunc : Nat → Int) (dq : delayQueue) (e : Int) :
    (dq.refreshTimer nowFunc e).2 =
      { dq with
        t := if 0 < wrapInt64 (e - nowFunc dq.tick) then
            Timer.armed e (wrapInt64 (wrapInt64 (e - nowFunc dq.tick) * Millisecond))
          else Timer.stopped
        tick := dq.tick + 1 } := by
  unfold refreshTimer
  simp only [Timer.stop_drain]
  split
  · rename_i h; simp [not_lt.2 h]
  · rename_i h; simp [not_le.1 h, Timer.Reset]

end delayQueue

namespace delayQueue

theorem handleTimeoutLoop_succ (nowFunc : Nat → Int) (fuel : Nat) (dq : delayQueue) :
    handleTimeoutLoop nowFunc (fuel + 1) dq =
      match dq.pq.Peek with
      | none => dq
      | some top =>
        if 0 < wrapInt64 (top.Expiration - nowFunc dq.tick) then
          { dq with
            t := Timer.armed top.Expiration
              (wrapInt64 (wrapInt64 (top.Expiration - nowFunc dq.tick) * Millisecond))
            tick := dq.tick + 1 }
        else
          handleTimeoutLoop nowFunc fuel
            { pq := ⟨dq.pq.items.erase top⟩, t := Timer.stopped, tick := dq.tick + 1,
              expireCh := dq.expireCh ++ [top] } := by
  rw [handleTimeoutLoop]
  cases hp : dq.pq.Peek with
  | none =>
    simp
  | some top =>
    have hlen : dq.pq.Len > 0 := by
      have := PriorityQueue.Peek_mem hp
      unfold PriorityQueue.Len
      exact List.length_pos_of_mem this
    simp only [hlen, if_true, refreshTimer_fst, refreshTimer_snd, decide_eq_true_eq]
    split
    · rfl
    · simp [PriorityQueue.Pop_eq_some hp]

end delayQueue

namespace delayQueue

theorem erase_Len {pq : PriorityQueue} {top : Item} (hp : pq.Peek = some top) :
    (PriorityQueue.mk (pq.items.erase top)).Len + 1 = pq.Len := by
  have hm := PriorityQueue.Peek_mem hp
  have hpos := List.length_pos_of_mem hm
  simp only [PriorityQueue.Len, List.length_erase_of_mem hm]
  omega

theorem handleTimeoutLoop_of_empty (nowFunc : Nat → Int) (fuel : Nat) (dq : delayQueue)
    (h : dq.pq.items = []) : handleTimeoutLoop nowFunc fuel dq = dq := by
  cases fuel with
  | zero => rfl
  | succ n =>
    rw [handleTimeoutLoop_succ, (PriorityQueue.Peek_eq_none_iff _).2 h]

/-- Hoare-style rule for the loop of `handleTimeout`: `P` is the loop invariant, `Q`
the postcondition, established when the loop leaves through the re-armed timer or
through the empty heap. -/
theorem handleTimeoutLoop_rule (nowFunc : Nat → Int) (P Q : delayQueue → Prop)
    (hpop : ∀ dq top, P dq → dq.pq.Peek = some top →
      wrapInt64 (top.Expiration - nowFunc dq.tick) ≤ 0 →
      P { pq := ⟨dq.pq.items.erase top⟩, t := Timer.stopped, tick := dq.tick + 1,
          expireCh := dq.expireCh ++ [top] })
    (harm : ∀ dq top, P dq → dq.pq.Peek = some top →
      0 < wrapInt64 (top.Expiration - nowFunc dq.tick) →
      Q { dq with
          t := Timer.armed top.Expiration
            (wrapInt64 (wrapInt64 (top.Expiration - nowFunc dq.tick) * Millisecond))
          tick := dq.tick + 1 })
    (hempty : ∀ dq, P dq → dq.pq.items = [] → Q dq) :
    ∀ (fuel : Nat) (dq : delayQueue), dq.pq.Len ≤ fuel → P dq →
      Q (handleTimeoutLoop nowFunc fuel dq) := by
  intro fuel
  induction fuel with
  | zero =>
    intro dq hlen hP
    have he : dq.pq.items = [] := by
      unfold PriorityQueue.Len at hlen
      exact List.length_eq_zero.1 (Nat.le_zero.1 hlen)
    rw [handleTimeoutLoop_of_empty _ _ _ he]
    exact hempty dq hP he
  | succ n ih =>
    intro dq hlen hP
    rw [handleTimeoutLoop_succ]
    cases hp : dq.pq.Peek with
    | none =>
      exact hempty dq hP ((PriorityQueue.Peek_eq_none_iff _).1 hp)
    | some top =>
      simp only
      split
      · rename_i hpos
        exact harm dq top hP hp hpos
      · rename_i hneg
        apply ih
        · have := erase_Len hp
          simp only at this ⊢
          omega
        · exact hpop dq top hP hp (not_lt.1 hneg)

/-- The loop of `handleTimeout` terminates: once the fuel covers the length of the
heap, more fuel does not change the result. -/
theorem handleTimeoutLoop_fuel (nowFunc : Nat → Int) :
    ∀ (fuel : Nat) (dq : delayQueue), dq.pq.Len ≤ fuel →
      handleTimeoutLoop nowFunc fuel dq = handleTimeout nowFunc dq := by
  intro fuel
  induction fuel with
  | zero =>
    intro dq hlen
    have he : dq.pq.items = [] := by
      unfold PriorityQueue.Len at hlen
      exact List.length_eq_zero.1 (Nat.le_zero.1 hlen)
    unfold handleTimeout
    rw [handleTimeoutLoop_of_empty _ _ _ he, handleTimeoutLoop_of_empty _ _ _ he]
  | succ n ih =>
    intro dq hlen
    unfold handleTimeout
    cases hp : dq.pq.Peek with
    | none =>
      have he := (PriorityQueue.Peek_eq_none_iff _).1 hp
      rw [handleTimeoutLoop_of_empty _ _ _ he, handleTimeoutLoop_of_empty _ _ _ he]
    | some top =>
      have hl := erase_Len hp
      obtain ⟨k, hk⟩ : ∃ k, dq.pq.Len = k + 1 := ⟨_, hl.symm⟩
      rw [hk, handleTimeoutLoop_succ, handleTimeoutLoop_succ, hp]
      simp only
      split
      · rfl
      · rw [ih _ (by simp only; omega)]
        unfold handleTimeout
        have : (PriorityQueue.mk (dq.pq.items.erase top)).Len = k := by omega
        simp only [this]

theorem handleTimeout_rule (nowFunc : Nat → Int) (P Q : delayQueue → Prop)
    (hpop : ∀ dq top, P dq → dq.pq.Peek = some top →
      wrapInt64 (top.Expiration - nowFunc dq.tick) ≤ 0 →
      P { pq := ⟨dq.pq.items.erase top⟩, t := Timer.stopped, tick := dq.tick + 1,
          expireCh := dq.expireCh ++ [top] })
    (harm : ∀ dq top, P dq → dq.pq.Peek = some top →
      0 < wrapInt64 (top.Expiration - nowFunc dq.tick) →
      Q { dq with
          t := Timer.armed top.Expiration
            (wrapInt64 (wrapInt64 (top.Expiration - nowFunc dq.tick) * Millisecond))
          tick := dq.tick + 1 })
    (hempty : ∀ dq, P dq → dq.pq.items = [] → Q dq)
    (dq : delayQueue) (hP : P dq) : Q (handleTimeout nowFunc dq) :=
  handleTimeoutLoop_rule nowFunc P Q hpop harm hempty _ dq (le_refl _) hP

end delayQueue

namespace delayQueue

/-- The condition under which `handleOffer` calls `refreshTimer`: the heap was empty
before the push, or the item expires strictly before the prior minimum. -/
theorem handleOffer_refresh (nowFunc : Nat → Int) (dq : delayQueue) (item : Item)
    (h : dq.Len = 0 ∨ ∃ top, dq.pq.Peek = some top ∧ item.Expiration < top.Expiration) :
    dq.handleOffer nowFunc item =
      (({ dq with pq := dq.pq.Push item } : delayQueue).refreshTimer nowFunc
        item.Expiration).2 := by
  unfold handleOffer
  rcases h with h | ⟨top, hp, hlt⟩
  · simp [h]
  · have hlen : dq.Len > 0 := List.length_pos_of_mem (PriorityQueue.Peek_mem hp)
    simp [hlen, hp, hlt]

theorem handleOffer_keep (nowFunc : Nat → Int) (dq : delayQueue) (item : Item)
    (h : ¬ (dq.Len = 0 ∨ ∃ top, dq.pq.Peek = some top ∧ item.Expiration < top.Expiration)) :
    dq.handleOffer nowFunc item = { dq with pq := dq.pq.Push item } := by
  unfold handleOffer
  push_neg at h
  obtain ⟨hlen, hle⟩ := h
  have hpos : dq.Len > 0 := Nat.pos_of_ne_zero hlen
  obtain ⟨top, hp⟩ := PriorityQueue.Peek_isSome_of_Len_pos hpos
  have := hle top hp
  simp [hpos, hp, not_lt.2 this, hlen]

theorem handleOffer_pq (nowFunc : Nat → Int) (dq : delayQueue) (item : Item) :
    (dq.handleOffer nowFunc item).pq = dq.pq.Push item := by
  by_cases h : dq.Len = 0 ∨ ∃ top, dq.pq.Peek = some top ∧ item.Expiration < top.Expiration
  · rw [handleOffer_refresh _ _ _ h, refreshTimer_snd]
  · rw [handleOffer_keep _ _ _ h]

theorem handleOffer_expireCh (nowFunc : Nat → Int) (dq : delayQueue) (item : Item) :
    (dq.handleOffer nowFunc item).expireCh = dq.expireCh := by
  by_cases h : dq.Len = 0 ∨ ∃ top, dq.pq.Peek = some top ∧ item.Expiration < top.Expiration
  · rw [handleOffer_refresh _ _ _ h, refreshTimer_snd]
  · rw [handleOffer_keep _ _ _ h]

end delayQueue

namespace delayQueue

theorem handleTimeout_perm (nowFunc : Nat → Int) (dq : delayQueue) :
    List.Perm ((handleTimeout nowFunc dq).expireCh ++ (handleTimeout nowFunc dq).pq.items)
      (dq.expireCh ++ dq.pq.items) := by
  refine handleTimeout_rule nowFunc
    (fun d => List.Perm (d.expireCh ++ d.pq.items) (dq.expireCh ++ dq.pq.items))
    (fun d => List.Perm (d.expireCh ++ d.pq.items) (dq.expireCh ++ dq.pq.items))
    ?_ ?_ ?_ dq (List.Perm.refl _)
  · intro d top hP hp _
    simp only [List.append_assoc, List.singleton_append]
    exact (List.Perm.append_left d.expireCh
      (List.perm_cons_erase (PriorityQueue.Peek_mem hp)).symm).trans hP
  · intro d top hP _ _
    exact hP
  · intro d hP _
    exact hP

theorem handleTimeout_emitted (nowFunc : Nat → Int) (dq : delayQueue) :
    (handleTimeout nowFunc dq).expireCh = dq.expireCh ++ emitted dq (handleTimeout nowFunc dq) ∧
    (handleTimeout nowFunc dq).Len + (emitted dq (handleTimeout nowFunc dq)).length = dq.Len := by
  have key : ∃ out, (handleTimeout nowFunc dq).expireCh = dq.expireCh ++ out ∧
      (handleTimeout nowFunc dq).Len + out.length = dq.Len := by
    refine handleTimeout_rule nowFunc
      (fun d => ∃ out, d.expireCh = dq.expireCh ++ out ∧ d.Len + out.length = dq.Len)
      (fun d => ∃ out, d.expireCh = dq.expireCh ++ out ∧ d.Len + out.length = dq.Len)
      ?_ ?_ ?_ dq ⟨[], by simp⟩
    · rintro d top ⟨out, h1, h2⟩ hp _
      refine ⟨out ++ [top], by simp [h1], ?_⟩
      have := erase_Len hp
      simp only [Len, List.length_append, List.length_singleton] at h2 ⊢
      omega
    · rintro d top ⟨out, h1, h2⟩ _ _
      exact ⟨out, h1, h2⟩
    · rintro d hP _
      exact hP
  obtain ⟨out, h1, h2⟩ := key
  have : emitted dq (handleTimeout nowFunc dq) = out := by
    unfold emitted
    rw [h1, List.drop_left]
  rw [this]
  exact ⟨h1, h2⟩

end delayQueue

theorem Reach.mono {nowFunc : Nat → Int} {ok1 ok2 : delayQueue → Item → Prop}
    (hok : ∀ dq item, ok1 dq item → ok2 dq item) {offered : List Item} {dq : delayQueue}
    (h : Reach nowFunc ok1 offered dq) : Reach nowFunc ok2 offered dq := by
  induction h with
  | fresh size => exact Reach.fresh size
  | offer item _ hi ih => exact Reach.offer item ih (hok _ _ hi)
  | fire _ ha ih => exact Reach.fire ih ha
  | timeout _ hf ih => exact Reach.timeout ih hf

theorem Reach.perm {nowFunc : Nat → Int} {ok : delayQueue → Item → Prop}
    {offered : List Item} {dq : delayQueue} (h : Reach nowFunc ok offered dq) :
    List.Perm offered (dq.expireCh ++ dq.pq.items) := by
  induction h with
  | fresh size => simp [NewDelayQueue, NewPriorityQueue]
  | @offer offered dq item _ _ ih =>
    rw [delayQueue.handleOffer_pq, delayQueue.handleOffer_expireCh]
    simp only [PriorityQueue.Push]
    have h1 : List.Perm (offered ++ [item]) (item :: offered) := by
      exact (List.perm_append_comm : List.Perm (offered ++ [item]) ([item] ++ offered))
    have h2 : List.Perm (item :: (dq.expireCh ++ dq.pq.items))
        (dq.expireCh ++ item :: dq.pq.items) := List.perm_middle.symm
    exact h1.trans ((List.Perm.cons item ih).trans h2)
  | fire _ _ ih => exact ih
  | @timeout offered dq _ _ ih =>
    exact ih.trans (delayQueue.handleTimeout_perm nowFunc { dq with t := Timer.stopped }).symm

/-- C4. Conservation and length accounting. In every state reachable from a fresh
queue, the offered items are, as a multiset, the delivered items together with the
items in the heap, and `Len()` plus the number of delivered items is the number of
handled insertions. `handleOffer` raises `Len()` by one and sends nothing;
`handleTimeout` lowers `Len()` by exactly the number of items it sends, and only
appends to what was sent before. -/
theorem heap_conservation (nowFunc : Nat → Int) (offered : List Item) (dq : delayQueue)
    (h : Reach nowFunc anyOffer offered dq) :
    List.Perm offered (dq.expireCh ++ dq.pq.items) ∧
    dq.Len + dq.expireCh.length = offered.length ∧
    (∀ (d : delayQueue) (item : Item),
      (d.handleOffer nowFunc item).Len = d.Len + 1 ∧
      (d.handleOffer nowFunc item).expireCh = d.expireCh) ∧
    (∀ d : delayQueue,
      (d.handleTimeout nowFunc).expireCh = d.expireCh ++ emitted d (d.handleTimeout nowFunc) ∧
      (d.handleTimeout nowFunc).Len + (emitted d (d.handleTimeout nowFunc)).length = d.Len) := by
  refine ⟨h.perm, ?_, ?_, ?_⟩
  · have := h.perm.length_eq
    simp only [List.length_append] at this
    simp only [delayQueue.Len, PriorityQueue.Len]
    omega
  · intro d item
    refine ⟨?_, delayQueue.handleOffer_expireCh nowFunc d item⟩
    simp [delayQueue.Len, delayQueue.handleOffer_pq, PriorityQueue.Len, PriorityQueue.Push]
  · intro d
    exact delayQueue.handleTimeout_emitted nowFunc d

theorem scenarioClock_monotone : Monotone scenarioClock := by
  intro a b hab
  unfold scenarioClock
  split_ifs <;> omega

theorem scenarioClock_range (n : Nat) : 1000 ≤ scenarioClock n ∧ scenarioClock n ≤ 1100 := by
  unfold scenarioClock
  split_ifs <;> omega

theorem scenario_noWrap (e : Int) (h0 : 0 ≤ e) (h1 : e ≤ 2000) (n : Nat) :
    NoWrap e (scenarioClock n) := by
  have := scenarioClock_range n
  unfold NoWrap isInt64 minInt64 maxInt64
  constructor <;> omega

/-- The scenario of the spec after both offers: A and B in the heap, the timer
armed for B. Both items are offered at clock 1000, before they expire. -/
theorem scenario_offers :
    Reach scenarioClock (futureOffer scenarioClock) [itemA, itemB]
      { pq := ⟨[itemB, itemA]⟩, t := Timer.armed 1050 50000000, tick := 2, expireCh := [] } :=
  Reach.offer itemB
    (Reach.offer itemA (Reach.fresh 0)
      ⟨by decide, scenario_noWrap 1100 (by decide) (by decide)⟩)
    ⟨by decide, scenario_noWrap 1050 (by decide) (by decide)⟩

/-- The scenario of the spec after the first timer wakeup, at clock 1050: B
delivered, A in the heap, the timer armed for A. -/
theorem scenario_first_wakeup :
    Reach scenarioClock (futureOffer scenarioClock) [itemA, itemB]
      { pq := ⟨[itemA]⟩, t := Timer.armed 1100 50000000, tick := 4, expireCh := [itemB] } :=
  Reach.timeout (Reach.fire scenario_offers (by decide)) (by decide)

/-- The scenario of the spec after the second timer wakeup, at clock 1100: B then
A delivered, the heap empty, the timer stopped. -/
theorem scenario_second_wakeup :
    Reach scenarioClock (futureOffer scenarioClock) [itemA, itemB]
      { pq := ⟨[]⟩, t := Timer.stopped, tick := 5, expireCh := [itemB, itemA] } :=
  Reach.timeout (Reach.fire scenario_first_wakeup (by decide)) (by decide)

theorem futureOffer_noWrapOffer (nowFunc : Nat → Int) (dq : delayQueue) (item : Item)
    (h : futureOffer nowFunc dq item) : noWrapOffer nowFunc dq item := h.2

theorem any_anyOffer (ok : delayQueue → Item → Prop) (dq : delayQueue) (item : Item)
    (_h : ok dq item) : anyOffer dq item := trivial

/-- Witness of C4: the scenario of the spec after both offers and the first timer
wakeup (B delivered, A still in the heap). -/
theorem heap_conservation_witness :
    List.Perm [itemA, itemB] ([itemB] ++ [itemA]) ∧
    (delayQueue.mk ⟨[itemA]⟩ (Timer.armed 1100 50000000) 4 [itemB]).Len + [itemB].length =
      [itemA, itemB].length :=
  ⟨(heap_conservation scenarioClock _ _ (scenario_first_wakeup.mono (any_anyOffer _))).1,
    (heap_conservation scenarioClock _ _ (scenario_first_wakeup.mono (any_anyOffer _))).2.1⟩

theorem delta_eq_of_noWrap {e now : Int} (h : NoWrap e now) : wrapInt64 (e - now) = e - now :=
  wrapInt64_of_isInt64 h

namespace delayQueue

theorem handleTimeout_orderInv (nowFunc : Nat → Int) (hmono : Monotone nowFunc)
    (dq : delayQueue) (hP : LoopInv nowFunc dq) : OrderInv nowFunc (handleTimeout nowFunc dq) := by
  refine handleTimeout_rule nowFunc (LoopInv nowFunc) (OrderInv nowFunc) ?_ ?_ ?_ dq hP
  · intro d top hP hp hle
    have hm := PriorityQueue.Peek_mem hp
    rw [delta_eq_of_noWrap (hP.noWrap top hm d.tick)] at hle
    have hstep : nowFunc d.tick ≤ nowFunc (d.tick + 1) := hmono (Nat.le_succ _)
    constructor
    · simp only
      rw [List.pairwise_append]
      refine ⟨hP.sorted, List.pairwise_singleton _ _, ?_⟩
      intro a ha b hb
      rw [List.mem_singleton] at hb
      subst hb
      exact hP.ahead b hm a ha
    · intro x hx
      simp only [List.mem_append, List.mem_singleton] at hx
      simp only
      rcases hx with hx | rfl
      · exact le_trans (hP.past x hx) hstep
      · omega
    · intro h hh n
      exact hP.noWrap h (List.mem_of_mem_erase hh) n
    · intro h hh x hx
      simp only [List.mem_append, List.mem_singleton] at hx
      rcases hx with hx | rfl
      · exact hP.ahead h (List.mem_of_mem_erase hh) x hx
      · exact PriorityQueue.Peek_le hp h (List.mem_of_mem_erase hh)
  · intro d top hP hp _
    have hstep : nowFunc d.tick ≤ nowFunc (d.tick + 1) := hmono (Nat.le_succ _)
    constructor
    · exact hP.sorted
    · intro x hx
      exact le_trans (hP.past x hx) hstep
    · exact hP.noWrap
    · intro _
      exact hP.ahead
    · intro hl
      simp [Timer.live] at hl
  · intro d hP he
    constructor
    · exact hP.sorted
    · exact hP.past
    · exact hP.noWrap
    · intro _
      exact hP.ahead
    · intro _ hne
      exact absurd he hne

theorem handleOffer_orderInv (nowFunc : Nat → Int) (hmono : Monotone nowFunc)
    (dq : delayQueue) (item : Item) (hI : OrderInv nowFunc dq)
    (hok : ∀ n, NoWrap item.Expiration (nowFunc n)) :
    OrderInv nowFunc (dq.handleOffer nowFunc item) := by
  have hstep : nowFunc dq.tick ≤ nowFunc (dq.tick + 1) := hmono (Nat.le_succ _)
  by_cases h : dq.Len = 0 ∨ ∃ top, dq.pq.Peek = some top ∧ item.Expiration < top.Expiration
  · rw [handleOffer_refresh _ _ _ h, refreshTimer_snd]
    simp only [delta_eq_of_noWrap (hok dq.tick), PriorityQueue.Push]
    constructor
    · exact hI.sorted
    · intro x hx
      exact le_trans (hI.past x hx) hstep
    · intro x hx n
      rcases List.mem_cons.1 hx with rfl | hx
      · exact hok n
      · exact hI.noWrap x hx n
    · intro hl x hx d hd
      simp only at hl
      have hpos : 0 < item.Expiration - nowFunc dq.tick := by
        by_contra hc
        simp [hc, Timer.live] at hl
      have hdpast := hI.past d hd
      rcases List.mem_cons.1 hx with rfl | hx
      · omega
      · cases hlive : dq.t.live with
        | true => exact hI.ahead hlive x hx d hd
        | false =>
          exfalso
          obtain ⟨h0, hh0, hdue⟩ := hI.stuck hlive (List.ne_nil_of_mem hx)
          rcases h with h | ⟨top, hp, hlt⟩
          · have := List.length_pos_of_mem hx
            simp only [Len, PriorityQueue.Len] at h
            omega
          · have := PriorityQueue.Peek_le hp h0 hh0
            omega
    · intro hl _
      simp only at hl ⊢
      have hneg : ¬ 0 < item.Expiration - nowFunc dq.tick := by
        intro hc
        simp [hc, Timer.live] at hl
      exact ⟨item, List.mem_cons_self _ _, by omega⟩
  · rw [handleOffer_keep _ _ _ h]
    push_neg at h
    obtain ⟨hlen, hle⟩ := h
    obtain ⟨top, hp⟩ := PriorityQueue.Peek_isSome_of_Len_pos (Nat.pos_of_ne_zero hlen)
    have htop := hle top hp
    have hm := PriorityQueue.Peek_mem hp
    simp only [PriorityQueue.Push]
    constructor
    · exact hI.sorted
    · exact hI.past
    · intro x hx n
      rcases List.mem_cons.1 hx with rfl | hx
      · exact hok n
      · exact hI.noWrap x hx n
    · intro hl x hx d hd
      rcases List.mem_cons.1 hx with rfl | hx
      · exact le_trans (hI.ahead hl top hm d hd) htop
      · exact hI.ahead hl x hx d hd
    · intro hl _
      obtain ⟨h0, hh0, hdue⟩ := hI.stuck hl (List.ne_nil_of_mem hm)
      exact ⟨h0, List.mem_cons_of_mem _ hh0, hdue⟩

end delayQueue

theorem Reach.orderInv {nowFunc : Nat → Int} (hmono : Monotone nowFunc)
    {offered : List Item} {dq : delayQueue}
    (h : Reach nowFunc (noWrapOffer nowFunc) offered dq) : OrderInv nowFunc dq := by
  induction h with
  | fresh size =>
    constructor <;> simp [NewDelayQueue, NewPriorityQueue]
  | offer item _ hi ih => exact delayQueue.handleOffer_orderInv nowFunc hmono _ item ih hi
  | fire _ ha ih =>
    constructor
    · exact ih.sorted
    · exact ih.past
    · exact ih.noWrap
    · intro _
      apply ih.ahead
      revert ha
      cases (_ : delayQueue).t <;> simp [Timer.isArmed, Timer.live]
    · intro hl
      simp [Timer.live] at hl
  | timeout _ hf ih =>
    apply delayQueue.handleTimeout_orderInv nowFunc hmono
    constructor
    · exact ih.sorted
    · exact ih.past
    · exact ih.noWrap
    · apply ih.ahead
      rw [hf]
      rfl

theorem negativeClock_monotone : Monotone negativeClock := by
  intro a b hab
  unfold negativeClock
  split_ifs <;> omega

/-- C1, as amended. Delivery order is non-decreasing: under a non-decreasing clock,
in every state reachable from a fresh queue by `handleOffer`, timer expiry and
`handleTimeout`, where for every offered item the subtraction of a clock value from
its expiration fits `int64`, the sequence of items sent to the output channel is
sorted by `Expiration()`. -/
theorem delivery_order_sorted (nowFunc : Nat → Int) (hmono : Monotone nowFunc)
    (offered : List Item) (dq : delayQueue)
    (h : Reach nowFunc (noWrapOffer nowFunc) offered dq) :
    dq.expireCh.Pairwise (fun a b => a.Expiration ≤ b.Expiration) :=
  (h.orderInv hmono).sorted

/-- Witness of C1: the scenario of the spec, delivery order B (1050) then A (1100). -/
theorem delivery_order_sorted_witness :
    [itemB, itemA].Pairwise (fun a b => a.Expiration ≤ b.Expiration) :=
  delivery_order_sorted scenarioClock scenarioClock_monotone [itemA, itemB] _
    (scenario_second_wakeup.mono (futureOffer_noWrapOffer _))

/-- Counterexample to C1 as stated. The clock is non-decreasing (-10, then -1, then
100). Offer an item expiring at -5 (timer armed), then an item expiring at the
largest `int64`. At the wakeup the clock is -1: the first item is due, and for the
second the subtraction `maxInt64 - (-1)` wraps to a negative delta, so it is sent
too. An item expiring at 100, offered next, is sent at clock 100: the expirations
sent are -5, `maxInt64`, 100. -/
theorem delivery_order_counterexample :
    Monotone negativeClock ∧
    Reach negativeClock anyOffer [⟨1, -5⟩, ⟨2, maxInt64⟩, ⟨3, 100⟩]
      { pq := ⟨[]⟩, t := Timer.stopped, tick := 5,
        expireCh := [⟨1, -5⟩, ⟨2, maxInt64⟩, ⟨3, 100⟩] } ∧
    ¬ ([⟨1, -5⟩, ⟨2, maxInt64⟩, ⟨3, 100⟩] : List Item).Pairwise
        (fun a b => a.Expiration ≤ b.Expiration) := by
  refine ⟨negativeClock_monotone, ?_, by decide⟩
  have h1 : Reach negativeClock anyOffer [⟨1, -5⟩, ⟨2, maxInt64⟩]
      { pq := ⟨[⟨2, maxInt64⟩, ⟨1, -5⟩]⟩, t := Timer.armed (-5) 5000000, tick := 1,
        expireCh := [] } :=
    Reach.offer ⟨2, maxInt64⟩ (Reach.offer ⟨1, -5⟩ (Reach.fresh 0) trivial) trivial
  have h2 : Reach negativeClock anyOffer [⟨1, -5⟩, ⟨2, maxInt64⟩]
      { pq := ⟨[]⟩, t := Timer.stopped, tick := 3,
        expireCh := [⟨1, -5⟩, ⟨2, maxInt64⟩] } :=
    Reach.timeout (Reach.fire h1 (by decide)) (by decide)
  have h3 : Reach negativeClock anyOffer [⟨1, -5⟩, ⟨2, maxInt64⟩, ⟨3, 100⟩]
      { pq := ⟨[⟨3, 100⟩]⟩, t := Timer.armed 100 101000000, tick := 4,
        expireCh := [⟨1, -5⟩, ⟨2, maxInt64⟩] } :=
    Reach.offer ⟨3, 100⟩ h2 trivial
  exact Reach.timeout (Reach.fire h3 (by decide)) (by decide)

namespace delayQueue

theorem handleTimeout_reads (nowFunc : Nat → Int) (dq : delayQueue)
    (hnw : ∀ x ∈ dq.pq.items, ∀ n, NoWrap x.Expiration (nowFunc n)) :
    ∃ out : List Item, (handleTimeout nowFunc dq).expireCh = dq.expireCh ++ out ∧
      ∀ (i : Nat) (hi : i < out.length), out[i].Expiration ≤ nowFunc (dq.tick + i) := by
  refine handleTimeout_rule nowFunc
    (fun d => ∃ out : List Item, d.expireCh = dq.expireCh ++ out ∧
      d.tick = dq.tick + out.length ∧
      (∀ x ∈ d.pq.items, ∀ n, NoWrap x.Expiration (nowFunc n)) ∧
      ∀ (i : Nat) (hi : i < out.length), out[i].Expiration ≤ nowFunc (dq.tick + i))
    (fun d => ∃ out : List Item, d.expireCh = dq.expireCh ++ out ∧
      ∀ (i : Nat) (hi : i < out.length), out[i].Expiration ≤ nowFunc (dq.tick + i))
    ?_ ?_ ?_ dq ⟨[], by simp, by simp, hnw, by simp⟩
  · rintro d top ⟨out, h1, h2, h3, h4⟩ hp hle
    have hm := PriorityQueue.Peek_mem hp
    rw [delta_eq_of_noWrap (h3 top hm d.tick)] at hle
    refine ⟨out ++ [top], by simp [h1], by simp [h2]; omega, ?_, ?_⟩
    · intro x hx n
      exact h3 x (List.mem_of_mem_erase hx) n
    · intro i hi
      by_cases hlt : i < out.length
      · rw [List.getElem_append_left hlt]
        exact h4 i hlt
      · have hi2 : i = out.length := by
          simp only [List.length_append, List.length_singleton] at hi
          omega
        subst hi2
        rw [List.getElem_append_right (le_refl _)]
        simp only [Nat.sub_self, List.getElem_cons_zero]
        rw [← h2]
        omega
  · rintro d top ⟨out, h1, _, _, h4⟩ _ _
    exact ⟨out, h1, h4⟩
  · rintro d ⟨out, h1, _, _, h4⟩ _
    exact ⟨out, h1, h4⟩

end delayQueue

/-- C2, as amended. No early delivery: for every heap content and every clock
function such that the subtraction `Expiration() - now` fits `int64` for the items
of the heap, `handleTimeout` appends the items it sends to the output, and item
number `i` it sends has `Expiration()` at most the clock value read by call number
`i` of `refreshTimer` in this run, the one made immediately before that item was
popped. -/
theorem no_early_delivery (nowFunc : Nat → Int) (dq : delayQueue)
    (hnw : ∀ x ∈ dq.pq.items, ∀ n, NoWrap x.Expiration (nowFunc n)) :
    (dq.handleTimeout nowFunc).expireCh = dq.expireCh ++ emitted dq (dq.handleTimeout nowFunc) ∧
    ∀ (i : Nat) (hi : i < (emitted dq (dq.handleTimeout nowFunc)).length),
      (emitted dq (dq.handleTimeout nowFunc))[i].Expiration ≤ nowFunc (dq.tick + i) := by
  obtain ⟨out, h1, h2⟩ := delayQueue.handleTimeout_reads nowFunc dq hnw
  have he : emitted dq (dq.handleTimeout nowFunc) = out := by
    unfold emitted
    rw [h1, List.drop_left]
  rw [he]
  exact ⟨h1, h2⟩

/-- Witness of C2: the first wakeup of the scenario of the spec sends B, which
expires at 1050, after the clock read 1050. -/
theorem no_early_delivery_witness :
    emitted { pq := ⟨[itemB, itemA]⟩, t := Timer.stopped, tick := 2, expireCh := [] }
        (delayQueue.handleTimeout scenarioClock
          { pq := ⟨[itemB, itemA]⟩, t := Timer.stopped, tick := 2, expireCh := [] }) = [itemB] ∧
      itemB.Expiration ≤ scenarioClock (2 + 0) :=
  ⟨by decide,
    (no_early_delivery scenarioClock
      { pq := ⟨[itemB, itemA]⟩, t := Timer.stopped, tick := 2, expireCh := [] }
      (fun x hx n => by
        have hx2 : x = itemB ∨ x = itemA := by simpa using hx
        rcases hx2 with rfl | rfl
        · exact scenario_noWrap 1050 (by decide) (by decide) n
        · exact scenario_noWrap 1100 (by decide) (by decide) n)).2 0 (by decide)⟩

/-- Counterexample to C2 as stated. The heap holds one item expiring at the largest
`int64` and the clock returns -1: the `int64` subtraction `maxInt64 - (-1)` wraps to
the smallest `int64`, `refreshTimer` reports that the item is due, and
`handleTimeout` sends it although the clock is strictly before its expiration. -/
theorem no_early_delivery_counterexample :
    isInt64 maxInt64 ∧ isInt64 (-1) ∧
    wrapInt64 (maxInt64 - (-1)) = minInt64 ∧
    (delayQueue.handleTimeout (fun _ => -1)
      { pq := ⟨[⟨1, maxInt64⟩]⟩, t := Timer.fired, tick := 0, expireCh := [] }).expireCh
      = [⟨1, maxInt64⟩] ∧
    (-1 : Int) < (Item.mk 1 maxInt64).Expiration := by
  decide

namespace delayQueue

theorem handleTimeout_live (nowFunc : Nat → Int) (dq : delayQueue) (ht : dq.t = Timer.stopped) :
    ((handleTimeout nowFunc dq).t.live = true ↔ (handleTimeout nowFunc dq).pq.items ≠ []) := by
  refine handleTimeout_rule nowFunc (fun d => d.t = Timer.stopped)
    (fun d => (d.t.live = true ↔ d.pq.items ≠ [])) ?_ ?_ ?_ dq ht
  · intro d top _ _ _
    rfl
  · intro d top _ hp _
    simp only [Timer.live, true_iff]
    exact List.ne_nil_of_mem (PriorityQueue.Peek_mem hp)
  · intro d hP he
    simp [hP, he, Timer.live]

theorem handleTimeout_drain (nowFunc : Nat → Int) (hmono : Monotone nowFunc) (dq : delayQueue)
    (ht : dq.t = Timer.stopped)
    (hnw : ∀ x ∈ dq.pq.items, ∀ n, NoWrap x.Expiration (nowFunc n))
    (hdue : ∀ x ∈ dq.pq.items, x.Expiration ≤ nowFunc dq.tick) :
    (handleTimeout nowFunc dq).t = Timer.stopped ∧ (handleTimeout nowFunc dq).pq.items = [] := by
  refine handleTimeout_rule nowFunc
    (fun d => d.t = Timer.stopped ∧ (∀ x ∈ d.pq.items, ∀ n, NoWrap x.Expiration (nowFunc n)) ∧
      ∀ x ∈ d.pq.items, x.Expiration ≤ nowFunc d.tick)
    (fun d => d.t = Timer.stopped ∧ d.pq.items = []) ?_ ?_ ?_ dq ⟨ht, hnw, hdue⟩
  · rintro d top ⟨_, h2, h3⟩ _ _
    refine ⟨rfl, fun x hx n => h2 x (List.mem_of_mem_erase hx) n, ?_⟩
    intro x hx
    exact le_trans (h3 x (List.mem_of_mem_erase hx)) (hmono (Nat.le_succ _))
  · rintro d top ⟨_, h2, h3⟩ hp hpos
    exfalso
    have hm := PriorityQueue.Peek_mem hp
    rw [delta_eq_of_noWrap (h2 top hm d.tick)] at hpos
    have := h3 top hm
    omega
  · rintro d ⟨h1, _, _⟩ he
    exact ⟨h1, he⟩

end delayQueue

theorem futureOffer_armingOffer (nowFunc : Nat → Int) (dq : delayQueue) (item : Item)
    (h : futureOffer nowFunc dq item) : armingOffer nowFunc dq item :=
  ⟨h.2, fun _ => h.1⟩

theorem armingOffer_noWrapOffer (nowFunc : Nat → Int) (dq : delayQueue) (item : Item)
    (h : armingOffer nowFunc dq item) : noWrapOffer nowFunc dq item := h.1

theorem Reach.live_iff {nowFunc : Nat → Int} {offered : List Item} {dq : delayQueue}
    (h : Reach nowFunc (armingOffer nowFunc) offered dq) :
    (dq.t.live = true ↔ dq.pq.items ≠ []) := by
  induction h with
  | fresh size => simp [NewDelayQueue, NewPriorityQueue, Timer.Stop, Timer.live]
  | @offer offered dq item _ hi ih =>
    obtain ⟨hnw, hfut⟩ := hi
    by_cases hc : dq.Len = 0 ∨ ∃ top, dq.pq.Peek = some top ∧ item.Expiration < top.Expiration
    · rw [delayQueue.handleOffer_refresh _ _ _ hc, delayQueue.refreshTimer_snd]
      simp only [delta_eq_of_noWrap (hnw dq.tick), PriorityQueue.Push]
      have hpos : 0 < item.Expiration - nowFunc dq.tick := by
        have := hfut hc
        omega
      simp [hpos, Timer.live]
    · rw [delayQueue.handleOffer_keep _ _ _ hc]
      push_neg at hc
      have hne : dq.pq.items ≠ [] := by
        intro he
        apply hc.1
        simp [delayQueue.Len, PriorityQueue.Len, he]
      simp only [PriorityQueue.Push]
      simp [ih.2 hne]
  | @fire offered dq _ ha ih =>
    have : dq.t.live = true := by
      revert ha
      cases dq.t <;> simp [Timer.isArmed, Timer.live]
    simp only [Timer.live, true_iff]
    exact ih.1 this
  | timeout _ _ _ =>
    exact delayQueue.handleTimeout_live nowFunc _ rfl

theorem jumpClock_monotone : Monotone jumpClock := by
  intro a b hab
  unfold jumpClock maxInt64
  split_ifs <;> omega

theorem Reach.loopInv {nowFunc : Nat → Int} (hmono : Monotone nowFunc)
    {offered : List Item} {dq : delayQueue}
    (h : Reach nowFunc (armingOffer nowFunc) offered dq) :
    LoopInv nowFunc { dq with t := Timer.stopped } := by
  have hI := (h.mono (armingOffer_noWrapOffer nowFunc)).orderInv hmono
  refine ⟨hI.sorted, hI.past, hI.noWrap, ?_⟩
  intro x hx d hd
  exact hI.ahead (h.live_iff.2 (List.ne_nil_of_mem hx)) x hx d hd

theorem equalClock_noWrap (n : Nat) : NoWrap 1100 (equalClock n) := by
  unfold NoWrap isInt64 minInt64 maxInt64 equalClock
  split_ifs <;> constructor <;> omega

/-- Two items that both expire at 1100 are offered at clock 1000 and the wakeup
comes on time, at clock 1100. The second offer does not read the clock; the run
satisfies `armingOffer` and both items are delivered. -/
theorem equal_expirations_run :
    Reach equalClock (armingOffer equalClock) [⟨1, 1100⟩, ⟨2, 1100⟩]
      { pq := ⟨[]⟩, t := Timer.stopped, tick := 3, expireCh := [⟨2, 1100⟩, ⟨1, 1100⟩] } :=
  Reach.timeout
    (Reach.fire
      (Reach.offer ⟨2, 1100⟩
        (Reach.offer ⟨1, 1100⟩ (Reach.fresh 0) ⟨equalClock_noWrap, fun _ => by decide⟩)
        ⟨equalClock_noWrap, fun h => by
          exfalso
          revert h
          decide⟩)
      (by decide))
    (by decide)

/-- C3, as amended. End-to-end ordering and completeness, for a non-decreasing clock
and insertions in any arrival order, such that the subtraction of a clock value from
an expiration fits `int64` and such that, whenever `handleOffer` calls the re-arm
primitive for an item, the clock value read by that call is strictly before the
expiration of the item. In every reachable state a wakeup is on its way exactly when
the heap is not empty. Once no wakeup is outstanding (the timer is stopped), the
heap is empty and the delivered sequence is sorted by expiration, is a permutation of
the offered items and has their number. And a wakeup handled when the clock has
reached every expiration of the heap empties the heap, stops the timer and leaves
such a delivered sequence. -/
theorem end_to_end_delivery (nowFunc : Nat → Int) (hmono : Monotone nowFunc)
    (offered : List Item) (dq : delayQueue)
    (h : Reach nowFunc (armingOffer nowFunc) offered dq) :
    (dq.t.live = true ↔ dq.pq.items ≠ []) ∧
    (dq.t = Timer.stopped →
      dq.Len = 0 ∧
      dq.expireCh.Pairwise (fun a b => a.Expiration ≤ b.Expiration) ∧
      List.Perm dq.expireCh offered ∧
      dq.expireCh.length = offered.length) ∧
    ((∀ x ∈ dq.pq.items, x.Expiration ≤ nowFunc dq.tick) →
      (delayQueue.handleTimeout nowFunc { dq with t := Timer.stopped }).t = Timer.stopped ∧
      (delayQueue.handleTimeout nowFunc { dq with t := Timer.stopped }).Len = 0 ∧
      (delayQueue.handleTimeout nowFunc { dq with t := Timer.stopped }).expireCh.Pairwise
        (fun a b => a.Expiration ≤ b.Expiration) ∧
      List.Perm (delayQueue.handleTimeout nowFunc { dq with t := Timer.stopped }).expireCh
        offered ∧
      (delayQueue.handleTimeout nowFunc { dq with t := Timer.stopped }).expireCh.length =
        offered.length) := by
  have hI := (h.mono (armingOffer_noWrapOffer nowFunc)).orderInv hmono
  refine ⟨h.live_iff, ?_, ?_⟩
  · intro ht
    have he : dq.pq.items = [] := by
      by_contra hne
      have := h.live_iff.2 hne
      rw [ht] at this
      simp [Timer.live] at this
    have hp := h.perm
    rw [he, List.append_nil] at hp
    exact ⟨by simp [delayQueue.Len, PriorityQueue.Len, he], hI.sorted, hp.symm,
      hp.symm.length_eq⟩
  · intro hdue
    obtain ⟨h1, h2⟩ := delayQueue.handleTimeout_drain nowFunc hmono
      { dq with t := Timer.stopped } rfl hI.noWrap hdue
    have hs := (delayQueue.handleTimeout_orderInv nowFunc hmono _ (h.loopInv hmono)).sorted
    have hp := (delayQueue.handleTimeout_perm nowFunc { dq with t := Timer.stopped }).trans
      h.perm.symm
    rw [h2, List.append_nil] at hp
    exact ⟨h1, by simp [delayQueue.Len, PriorityQueue.Len, h2], hs, hp, hp.length_eq⟩

/-- Witness of C3: the scenario of the spec. Clock 1000, offer A (1100) then B
(1050); the wakeup at clock 1050 delivers exactly B; the wakeup at clock 1100
delivers A; the final order is B, A and the heap is empty. -/
theorem end_to_end_delivery_witness :
    emitted { pq := ⟨[itemB, itemA]⟩, t := Timer.armed 1050 50000000, tick := 2, expireCh := [] }
        { pq := ⟨[itemA]⟩, t := Timer.armed 1100 50000000, tick := 4, expireCh := [itemB] }
      = [itemB] ∧
    (delayQueue.mk ⟨[]⟩ Timer.stopped 5 [itemB, itemA]).Len = 0 ∧
    [itemB, itemA].Pairwise (fun a b => a.Expiration ≤ b.Expiration) ∧
    List.Perm [itemB, itemA] [itemA, itemB] ∧
    [itemB, itemA].length = [itemA, itemB].length :=
  ⟨by decide,
    (end_to_end_delivery scenarioClock scenarioClock_monotone [itemA, itemB]
      { pq := ⟨[]⟩, t := Timer.stopped, tick := 5, expireCh := [itemB, itemA] }
      (scenario_second_wakeup.mono (futureOffer_armingOffer _))).2.1 rfl⟩

/-- Counterexample to C3 as stated. The clock reads -1 when the item, expiring at
the largest `int64`, is offered: the item is in the future, but the `int64`
subtraction wraps to a negative delta and `refreshTimer` leaves the timer stopped.
The clock then advances to the largest `int64`. No wakeup was armed, the clock has
reached the largest expiration, yet nothing was delivered and the heap still holds
the item. -/
theorem end_to_end_delivery_counterexample :
    Monotone jumpClock ∧
    jumpClock 0 < (Item.mk 1 maxInt64).Expiration ∧
    Reach jumpClock anyOffer [⟨1, maxInt64⟩]
      { pq := ⟨[⟨1, maxInt64⟩]⟩, t := Timer.stopped, tick := 1, expireCh := [] } ∧
    (Item.mk 1 maxInt64).Expiration ≤ jumpClock 1 ∧
    ¬ List.Perm ([] : List Item) [⟨1, maxInt64⟩] :=
  ⟨jumpClock_monotone, by decide, Reach.offer ⟨1, maxInt64⟩ (Reach.fresh 0) trivial,
    by decide, by simp⟩

namespace PriorityQueue

theorem Peek_Push_isSome (pq : PriorityQueue) (item : Item) :
    ∃ m, (pq.Push item).Peek = some m :=
  Peek_isSome_of_Len_pos (by simp [Len, Push])

theorem Peek_Push_of_lt (pq : PriorityQueue) (item : Item)
    (h : pq.Len = 0 ∨ ∃ top, pq.Peek = some top ∧ item.Expiration < top.Expiration) :
    ∃ m, (pq.Push item).Peek = some m ∧ m.Expiration = item.Expiration := by
  obtain ⟨m, hm⟩ := Peek_Push_isSome pq item
  refine ⟨m, hm, ?_⟩
  have hle := Peek_le hm item (by simp [Push])
  have hmem : m ∈ item :: pq.items := Peek_mem hm
  rcases List.mem_cons.1 hmem with rfl | hmem
  · rfl
  · rcases h with h | ⟨top, hp, hlt⟩
    · have := List.length_pos_of_mem hmem
      simp only [Len] at h
      omega
    · have := Peek_le hp m hmem
      omega

theorem Peek_Push_of_ge (pq : PriorityQueue) (item top : Item) (hp : pq.Peek = some top)
    (h : top.Expiration ≤ item.Expiration) :
    ∃ m, (pq.Push item).Peek = some m ∧ m.Expiration = top.Expiration := by
  obtain ⟨m, hm⟩ := Peek_Push_isSome pq item
  refine ⟨m, hm, ?_⟩
  have hle := Peek_le hm top (by simp [Push, Peek_mem hp])
  have hmem : m ∈ item :: pq.items := Peek_mem hm
  rcases List.mem_cons.1 hmem with rfl | hmem
  · omega
  · have := Peek_le hp m hmem
    omega

end PriorityQueue

namespace delayQueue

theorem handleTimeout_armed_at_min (nowFunc : Nat → Int) (dq : delayQueue)
    (ht : dq.t = Timer.stopped) :
    ∀ tgt d, (handleTimeout nowFunc dq).t = Timer.armed tgt d →
      ∃ top, (handleTimeout nowFunc dq).pq.Peek = some top ∧ top.Expiration = tgt := by
  refine handleTimeout_rule nowFunc (fun d => d.t = Timer.stopped)
    (fun d => ∀ tgt du, d.t = Timer.armed tgt du →
      ∃ top, d.pq.Peek = some top ∧ top.Expiration = tgt) ?_ ?_ ?_ dq ht
  · intro d top _ _ _
    rfl
  · intro d top _ hp _ tgt du hq
    simp only [Timer.armed.injEq] at hq
    exact ⟨top, hp, hq.1⟩
  · intro d hP _ tgt du hq
    rw [hP] at hq
    cases hq

theorem handleOffer_armed_at_min (nowFunc : Nat → Int) (dq : delayQueue) (item : Item)
    (hI : ∀ tgt d, dq.t = Timer.armed tgt d →
      ∃ top, dq.pq.Peek = some top ∧ top.Expiration = tgt) :
    ∀ tgt d, (dq.handleOffer nowFunc item).t = Timer.armed tgt d →
      ∃ top, (dq.handleOffer nowFunc item).pq.Peek = some top ∧ top.Expiration = tgt := by
  intro tgt d hq
  rw [handleOffer_pq]
  by_cases h : dq.Len = 0 ∨ ∃ top, dq.pq.Peek = some top ∧ item.Expiration < top.Expiration
  · rw [handleOffer_refresh _ _ _ h, refreshTimer_snd] at hq
    simp only at hq
    split at hq
    · simp only [Timer.armed.injEq] at hq
      obtain ⟨m, hm, he⟩ := PriorityQueue.Peek_Push_of_lt dq.pq item h
      exact ⟨m, hm, by rw [he, hq.1]⟩
    · cases hq
  · rw [handleOffer_keep _ _ _ h] at hq
    obtain ⟨top, hp, he⟩ := hI tgt d hq
    push_neg at h
    obtain ⟨m, hm, he2⟩ := PriorityQueue.Peek_Push_of_ge dq.pq item top hp (h.2 top hp)
    exact ⟨m, hm, by rw [he2, he]⟩

end delayQueue

theorem Reach.armed_at_min {nowFunc : Nat → Int} {ok : delayQueue → Item → Prop}
    {offered : List Item} {dq : delayQueue} (h : Reach nowFunc ok offered dq) :
    ∀ tgt d, dq.t = Timer.armed tgt d →
      ∃ top, dq.pq.Peek = some top ∧ top.Expiration = tgt := by
  induction h with
  | fresh size =>
    intro tgt d hq
    simp [NewDelayQueue, Timer.Stop] at hq
  | offer item _ _ ih => exact delayQueue.handleOffer_armed_at_min nowFunc _ item ih
  | fire _ _ _ =>
    intro tgt d hq
    cases hq
  | timeout _ _ _ => exact delayQueue.handleTimeout_armed_at_min nowFunc _ rfl

/-- C7, as amended. Insertion rule and timer tightening. For every state and item,
`handleOffer` pushes the item and sends nothing; it calls the re-arm primitive with
the expiration of the item exactly when the heap was empty before the push or the
item expires strictly before the prior minimum, and otherwise leaves the timer
untouched and does not read the clock. When the primitive is called and the `int64`
difference between the expiration and the clock is positive, the timer is armed for
exactly the expiration of the item. In every reachable state, an insertion that
leaves the timer armed never moves an armed deadline later. -/
theorem handleOffer_insertion_rule (nowFunc : Nat → Int) (dq : delayQueue) (item : Item) :
    (dq.handleOffer nowFunc item).pq = dq.pq.Push item ∧
    (dq.handleOffer nowFunc item).expireCh = dq.expireCh ∧
    ((dq.Len = 0 ∨ ∃ top, dq.pq.Peek = some top ∧ item.Expiration < top.Expiration) →
      dq.handleOffer nowFunc item =
        (({ dq with pq := dq.pq.Push item } : delayQueue).refreshTimer nowFunc
          item.Expiration).2) ∧
    (¬ (dq.Len = 0 ∨ ∃ top, dq.pq.Peek = some top ∧ item.Expiration < top.Expiration) →
      (dq.handleOffer nowFunc item).t = dq.t ∧ (dq.handleOffer nowFunc item).tick = dq.tick) ∧
    ((dq.Len = 0 ∨ ∃ top, dq.pq.Peek = some top ∧ item.Expiration < top.Expiration) →
      0 < wrapInt64 (item.Expiration - nowFunc dq.tick) →
      (dq.handleOffer nowFunc item).t =
        Timer.armed item.Expiration
          (wrapInt64 (wrapInt64 (item.Expiration - nowFunc dq.tick) * Millisecond))) ∧
    (∀ offered, Reach nowFunc anyOffer offered dq →
      ∀ tgt d tgt2 d2, dq.t = Timer.armed tgt d →
        (dq.handleOffer nowFunc item).t = Timer.armed tgt2 d2 → tgt2 ≤ tgt) := by
  refine ⟨delayQueue.handleOffer_pq _ _ _, delayQueue.handleOffer_expireCh _ _ _,
    delayQueue.handleOffer_refresh _ _ _, ?_, ?_, ?_⟩
  · intro h
    rw [delayQueue.handleOffer_keep _ _ _ h]
    exact ⟨rfl, rfl⟩
  · intro h hpos
    rw [delayQueue.handleOffer_refresh _ _ _ h, delayQueue.refreshTimer_snd]
    simp [hpos]
  · intro offered hr tgt d tgt2 d2 ht ht2
    obtain ⟨top, hp, he⟩ := hr.armed_at_min tgt d ht
    by_cases h : dq.Len = 0 ∨ ∃ top, dq.pq.Peek = some top ∧ item.Expiration < top.Expiration
    · rw [delayQueue.handleOffer_refresh _ _ _ h, delayQueue.refreshTimer_snd] at ht2
      simp only at ht2
      split at ht2
      · simp only [Timer.armed.injEq] at ht2
        rcases h with h | ⟨top2, hp2, hlt⟩
        · have := List.length_pos_of_mem (PriorityQueue.Peek_mem hp)
          simp only [delayQueue.Len, PriorityQueue.Len] at h
          omega
        · rw [hp] at hp2
          cases hp2
          omega
      · cases ht2
    · rw [delayQueue.handleOffer_keep _ _ _ h] at ht2
      simp only at ht2
      rw [ht] at ht2
      simp only [Timer.armed.injEq] at ht2
      omega

/-- Witness of C7: in the scenario of the spec, B (1050) is offered while the timer
is armed for A (1100), at clock 1000: the timer is re-armed for 1050. -/
theorem handleOffer_insertion_rule_witness :
    ((delayQueue.mk ⟨[itemA]⟩ (Timer.armed 1100 100000000) 1 []).handleOffer scenarioClock
        itemB).t = Timer.armed 1050 50000000 ∧ (1050 : Int) ≤ 1100 :=
  ⟨(handleOffer_insertion_rule scenarioClock
      (delayQueue.mk ⟨[itemA]⟩ (Timer.armed 1100 100000000) 1 []) itemB).2.2.2.2.1
      (Or.inr ⟨itemA, by decide, by decide⟩) (by decide),
    (handleOffer_insertion_rule scenarioClock
      (delayQueue.mk ⟨[itemA]⟩ (Timer.armed 1100 100000000) 1 []) itemB).2.2.2.2.2
      [itemA] (Reach.offer itemA (Reach.fresh 0) trivial) 1100 100000000 1050 50000000
      rfl (by decide)⟩

/-- Counterexample to C7 as stated. The clock is constantly -2. The heap holds an
item expiring at the largest `int64` (its own offer left the timer stopped, the
subtraction having wrapped). An item expiring one millisecond earlier is offered: it
is in the future and earlier than the current minimum, the re-arm primitive is
called, but `maxInt64 - 1 - (-2)` wraps to a negative delta and the timer stays
stopped: the next wakeup is not the expiration of the inserted item. -/
theorem handleOffer_insertion_counterexample :
    Reach (fun _ => -2) anyOffer [⟨1, maxInt64⟩]
      { pq := ⟨[⟨1, maxInt64⟩]⟩, t := Timer.stopped, tick := 1, expireCh := [] } ∧
    (-2 : Int) < (Item.mk 2 (maxInt64 - 1)).Expiration ∧
    (Item.mk 2 (maxInt64 - 1)).Expiration < (Item.mk 1 maxInt64).Expiration ∧
    isInt64 (maxInt64 - 1) ∧
    ((delayQueue.mk ⟨[⟨1, maxInt64⟩]⟩ Timer.stopped 1 []).handleOffer (fun _ => -2)
      ⟨2, maxInt64 - 1⟩).t = Timer.stopped :=
  ⟨Reach.offer ⟨1, maxInt64⟩ (Reach.fresh 0) trivial, by decide, by decide, by decide,
    by decide⟩

theorem wrapInt64_duration {delta : Int} (h0 : 0 < delta) (h1 : delta ≤ 9223372036854) :
    wrapInt64 (delta * Millisecond) = delta * Millisecond := by
  apply wrapInt64_of_isInt64
  unfold isInt64 minInt64 maxInt64 Millisecond
  constructor <;> omega

/-- C8, as amended. Re-arm primitive. For every timer state, target expiration and
clock value, with `delta` the `int64` difference `expireTime - now` (computed with
wraparound): `refreshTimer` returns false exactly when `delta <= 0`, and then leaves
the timer stopped with no pending notification, whatever its state was; otherwise it
returns true and the timer is armed for the target with the duration `delta *
time.Millisecond` computed in `int64` with wraparound, which is `delta`
milliseconds when `delta <= 9223372036854`. It reads the clock once and changes
neither the heap nor the output. The method and the free function of `utils.go`
compute the same result and the same timer state when `now` is the value read. -/
theorem refreshTimer_rearm (nowFunc : Nat → Int) (dq : delayQueue) (expireTime : Int) :
    ((dq.refreshTimer nowFunc expireTime).1 = false ↔
      wrapInt64 (expireTime - nowFunc dq.tick) ≤ 0) ∧
    (wrapInt64 (expireTime - nowFunc dq.tick) ≤ 0 →
      (dq.refreshTimer nowFunc expireTime).2.t = Timer.stopped) ∧
    (0 < wrapInt64 (expireTime - nowFunc dq.tick) →
      (dq.refreshTimer nowFunc expireTime).1 = true ∧
      (dq.refreshTimer nowFunc expireTime).2.t =
        Timer.armed expireTime
          (wrapInt64 (wrapInt64 (expireTime - nowFunc dq.tick) * Millisecond))) ∧
    (0 < wrapInt64 (expireTime - nowFunc dq.tick) →
      wrapInt64 (expireTime - nowFunc dq.tick) ≤ 9223372036854 →
      (dq.refreshTimer nowFunc expireTime).2.t =
        Timer.armed expireTime (wrapInt64 (expireTime - nowFunc dq.tick) * Millisecond)) ∧
    (NoWrap expireTime (nowFunc dq.tick) →
      wrapInt64 (expireTime - nowFunc dq.tick) = expireTime - nowFunc dq.tick) ∧
    (dq.refreshTimer nowFunc expireTime).2.pq = dq.pq ∧
    (dq.refreshTimer nowFunc expireTime).2.expireCh = dq.expireCh ∧
    (dq.refreshTimer nowFunc expireTime).2.tick = dq.tick + 1 ∧
    ((dq.refreshTimer nowFunc expireTime).1, (dq.refreshTimer nowFunc expireTime).2.t) =
      DelayWheel.refreshTimer dq.t (nowFunc dq.tick) expireTime := by
  refine ⟨?_, ?_, ?_, ?_, delta_eq_of_noWrap, ?_, ?_, ?_, ?_⟩
  · rw [delayQueue.refreshTimer_fst]
    simp
  · intro h
    rw [delayQueue.refreshTimer_snd]
    simp [not_lt.2 h]
  · intro h
    rw [delayQueue.refreshTimer_fst, delayQueue.refreshTimer_snd]
    simp [h]
  · intro h h1
    rw [delayQueue.refreshTimer_snd]
    simp [h, wrapInt64_duration h h1]
  · rw [delayQueue.refreshTimer_snd]
  · rw [delayQueue.refreshTimer_snd]
  · rw [delayQueue.refreshTimer_snd]
  · rw [delayQueue.refreshTimer_fst, delayQueue.refreshTimer_snd]
    unfold DelayWheel.refreshTimer
    simp only [Timer.stop_drain]
    by_cases h : 0 < wrapInt64 (expireTime - nowFunc dq.tick)
    · simp [h, not_le.2 h, Timer.Reset]
    · simp [h, not_lt.1 h]

/-- Witness of C8: a fired timer whose notification is still pending, target 1050 at
clock 1000: the notification is discarded and the timer is armed for 50 ms. -/
theorem refreshTimer_rearm_witness :
    ((delayQueue.mk ⟨[itemB]⟩ Timer.fired 0 []).refreshTimer scenarioClock 1050).1 = true ∧
    ((delayQueue.mk ⟨[itemB]⟩ Timer.fired 0 []).refreshTimer scenarioClock 1050).2.t =
      Timer.armed 1050 (50 * Millisecond) :=
  ⟨((refreshTimer_rearm scenarioClock (delayQueue.mk ⟨[itemB]⟩ Timer.fired 0 []) 1050).2.2.1
      (by decide)).1,
    (refreshTimer_rearm scenarioClock (delayQueue.mk ⟨[itemB]⟩ Timer.fired 0 []) 1050).2.2.2.1
      (by decide) (by decide)⟩

/-- Counterexample to C8 as stated. Target `2 ^ 62` at clock 0: delta is `2 ^ 62`,
positive, and `refreshTimer` returns true, but the duration handed to `Reset` is
`2 ^ 62 * 1000000` wrapped to `int64`, which is 0: the timer is set to fire at once,
not after delta milliseconds. -/
theorem refreshTimer_rearm_counterexample :
    isInt64 (2 ^ 62) ∧
    (NewDelayQueue 0).refreshTimer (fun _ => 0) (2 ^ 62) =
      (true, { pq := ⟨[]⟩, t := Timer.armed (2 ^ 62) 0, tick := 1, expireCh := [] }) ∧
    (2 : Int) ^ 62 * Millisecond ≠ 0 := by
  decide

namespace System

theorem step_not_running (nowFunc : Nat → Int) (a : Action) (s s1 : System)
    (hl : s.loop ≠ LoopState.running) (ha : a ≠ Action.callStart)
    (h : step nowFunc a s = some s1) :
    s1.loop = s.loop ∧ s.stopCh ≤ s1.stopCh ∧ s1.dq.pq = s.dq.pq ∧
      s1.dq.expireCh = s.dq.expireCh := by
  cases a with
  | callStart => exact absurd rfl ha
  | callStop =>
    simp only [step] at h
    split at h
    · simp only [Option.some.injEq] at h
      subst h
      exact ⟨rfl, Nat.le_succ _, rfl, rfl⟩
    · cases h
  | callOffer item =>
    simp only [step] at h
    split at h
    · simp only [Option.some.injEq] at h
      subst h
      exact ⟨rfl, le_refl _, rfl, rfl⟩
    · cases h
  | timerFire =>
    simp only [step] at h
    split at h
    · simp only [Option.some.injEq] at h
      subst h
      exact ⟨rfl, le_refl _, rfl, rfl⟩
    · cases h
  | selectStop => simp [step, hl] at h
  | selectOffer => simp [step, hl] at h
  | selectTimeout => simp [step, hl] at h

theorem run_not_running (nowFunc : Nat → Int) (acts : List Action) :
    ∀ (s s1 : System), s.loop ≠ LoopState.running → Action.callStart ∉ acts →
      run nowFunc acts s = some s1 →
      s1.loop = s.loop ∧ s.stopCh ≤ s1.stopCh ∧ s1.dq.pq = s.dq.pq ∧
        s1.dq.expireCh = s.dq.expireCh := by
  induction acts with
  | nil =>
    intro s s1 _ _ h
    simp only [run, Option.some.injEq] at h
    subst h
    exact ⟨rfl, le_refl _, rfl, rfl⟩
  | cons a as ih =>
    intro s s1 hl hstart h
    simp only [run] at h
    cases hs : step nowFunc a s with
    | none => rw [hs] at h; cases h
    | some s2 =>
      rw [hs] at h
      have ha : a ≠ Action.callStart := by
        intro he
        apply hstart
        rw [he]
        exact List.mem_cons_self _ _
      obtain ⟨h1, h2, h3, h4⟩ := step_not_running nowFunc a s s2 hl ha hs
      obtain ⟨k1, k2, k3, k4⟩ := ih s2 s1 (by rw [h1]; exact hl)
        (fun hm => hstart (List.mem_cons_of_mem _ hm)) h
      exact ⟨k1.trans h1, le_trans h2 k2, k3.trans h3, k4.trans h4⟩

theorem callStop_blocked (nowFunc : Nat → Int) (s : System) (h : 1 ≤ s.stopCh) :
    step nowFunc Action.callStop s = none := by
  simp only [step]
  rw [if_neg (by omega)]

theorem callStop_blocked_forever (nowFunc : Nat → Int) (s s1 : System) (acts : List Action)
    (hl : s.loop ≠ LoopState.running) (h : 1 ≤ s.stopCh)
    (hstart : Action.callStart ∉ acts)
    (hr : run nowFunc acts s = some s1) : step nowFunc Action.callStop s1 = none :=
  callStop_blocked nowFunc s1 (le_trans h (run_not_running nowFunc acts s s1 hl hstart hr).2.1)

theorem run_append (nowFunc : Nat → Int) (as bs : List Action) :
    ∀ (s s1 : System), run nowFunc as s = some s1 →
      run nowFunc (as ++ bs) s = run nowFunc bs s1 := by
  induction as with
  | nil =>
    intro s s1 h
    simp only [run, Option.some.injEq] at h
    subst h
    rfl
  | cons a as ih =>
    intro s s1 h
    simp only [run, List.cons_append] at h ⊢
    cases hs : step nowFunc a s with
    | none => rw [hs] at h; cases h
    | some s2 =>
      rw [hs] at h
      simp only
      exact ih s2 s1 h

theorem stop_one_goroutine (nowFunc : Nat → Int) (s : System)
    (hl : s.loop = LoopState.running) :
    ∃ acts s1, run nowFunc acts s = some s1 ∧ s1.dq = s.dq ∧
      ((s.spare = 0 ∧ s1.loop = LoopState.exited) ∨
        (s1.loop = LoopState.running ∧ s1.spare + 1 = s.spare)) := by
  by_cases h : s.stopCh < 1
  · by_cases hsp : 0 < s.spare
    · refine ⟨[Action.callStop, Action.selectStop],
        { s with stopCh := s.stopCh + 1 - 1, spare := s.spare - 1 }, ?_, rfl,
        Or.inr ⟨hl, by simp only; omega⟩⟩
      simp [run, step, h, hl, hsp]
    · refine ⟨[Action.callStop, Action.selectStop],
        { s with stopCh := s.stopCh + 1 - 1, loop := LoopState.exited }, ?_, rfl,
        Or.inl ⟨by omega, rfl⟩⟩
      simp [run, step, h, hl, hsp]
  · have hpos : 0 < s.stopCh := by omega
    by_cases hsp : 0 < s.spare
    · refine ⟨[Action.selectStop],
        { s with stopCh := s.stopCh - 1, spare := s.spare - 1 }, ?_, rfl,
        Or.inr ⟨hl, by simp only; omega⟩⟩
      simp [run, step, hl, hpos, hsp]
    · refine ⟨[Action.selectStop],
        { s with stopCh := s.stopCh - 1, loop := LoopState.exited }, ?_, rfl,
        Or.inl ⟨by omega, rfl⟩⟩
      simp [run, step, hl, hpos, hsp]

theorem stop_reachable_running (nowFunc : Nat → Int) :
    ∀ (k : Nat) (s : System), s.loop = LoopState.running → s.spare = k →
      ∃ acts s1, run nowFunc acts s = some s1 ∧ s1.loop = LoopState.exited ∧
        s1.dq = s.dq := by
  intro k
  induction k with
  | zero =>
    intro s hl hk
    obtain ⟨acts, s1, hr, hd, h | h⟩ := stop_one_goroutine nowFunc s hl
    · exact ⟨acts, s1, hr, h.2, hd⟩
    · omega
  | succ n ih =>
    intro s hl hk
    obtain ⟨acts, s1, hr, hd, h | h⟩ := stop_one_goroutine nowFunc s hl
    · omega
    · obtain ⟨acts2, s2, hr2, hl2, hd2⟩ := ih s1 h.1 (by omega)
      refine ⟨acts ++ acts2, s2, ?_, hl2, hd2.trans hd⟩
      rw [run_append nowFunc acts acts2 s s1 hr]
      exact hr2

end System

/-- C9, as amended. Shutdown. Once every goroutine of `run` has taken the stop case
of its `select` and returned, no `handleOffer` or `handleTimeout` step runs, and for
every clock and every further sequence of actions in which `Start()` is not called
again the loop stays exited and the heap and the delivered sequence never change.
A further `Start()` always succeeds and relaunches the loop on the same queue. The
exited state can be reached from every state without changing the queue: start the
loop if none runs, and for each running goroutine place a stop signal if none is
buffered and let `select` take the stop case. -/
theorem exited_is_terminal (nowFunc : Nat → Int) (s : System) :
    (s.loop = LoopState.exited →
      System.step nowFunc Action.selectOffer s = none ∧
      System.step nowFunc Action.selectTimeout s = none ∧
      System.step nowFunc Action.selectStop s = none ∧
      (∀ acts s1, Action.callStart ∉ acts → System.run nowFunc acts s = some s1 →
        s1.loop = LoopState.exited ∧ s1.dq.pq = s.dq.pq ∧
          s1.dq.expireCh = s.dq.expireCh) ∧
      ∃ r, System.step nowFunc Action.callStart s = some r ∧
        r.loop = LoopState.running ∧ r.dq = s.dq) ∧
    (∃ acts s1, System.run nowFunc acts s = some s1 ∧ s1.loop = LoopState.exited ∧
      s1.dq = s.dq) := by
  constructor
  · intro hl
    have hne : s.loop ≠ LoopState.running := by rw [hl]; decide
    refine ⟨by simp [System.step, hl], by simp [System.step, hl], by simp [System.step, hl],
      ?_, ?_⟩
    · intro acts s1 hstart hr
      obtain ⟨h1, _, h3, h4⟩ := System.run_not_running nowFunc acts s s1 hne hstart hr
      exact ⟨h1.trans hl, h3, h4⟩
    · exact ⟨{ s with loop := LoopState.running, spare := 0 }, by simp [System.step, hl],
        rfl, rfl⟩
  · by_cases hl : s.loop = LoopState.running
    · exact System.stop_reachable_running nowFunc s.spare s hl rfl
    · by_cases he : s.loop = LoopState.exited
      · exact ⟨[], s, rfl, he, rfl⟩
      · obtain ⟨acts, s1, hr, h1, h2⟩ := System.stop_reachable_running nowFunc 0
          { s with loop := LoopState.running, spare := 0 } rfl rfl
        refine ⟨Action.callStart :: acts, s1, ?_, h1, h2⟩
        simp only [System.run, System.step, hl, if_false]
        exact hr

/-- Witness of C9: a fresh queue, no items, `Start()` and `Stop()` at once, and the
loop takes the stop case. `Len()` is 0, and after a later `Offer` nothing was
delivered and the heap is still empty. -/
theorem exited_is_terminal_witness :
    System.run scenarioClock [Action.callStart, Action.callStop, Action.selectStop]
        (System.fresh 0) =
      some { dq := NewDelayQueue 0, stopCh := 0, offerCh := none, loop := LoopState.exited } ∧
    (NewDelayQueue 0).Len = 0 ∧
    (System.mk (NewDelayQueue 0) 0 (some itemA) LoopState.exited 0).loop = LoopState.exited ∧
    (System.mk (NewDelayQueue 0) 0 (some itemA) LoopState.exited 0).dq.pq =
      (NewDelayQueue 0).pq ∧
    (System.mk (NewDelayQueue 0) 0 (some itemA) LoopState.exited 0).dq.expireCh = [] :=
  ⟨by decide, by decide,
    ((exited_is_terminal scenarioClock
      { dq := NewDelayQueue 0, stopCh := 0, offerCh := none, loop := LoopState.exited }).1
      rfl).2.2.2.1 [Action.callOffer itemA]
      (System.mk (NewDelayQueue 0) 0 (some itemA) LoopState.exited 0) (by decide) (by decide)⟩

/-- Counterexample to C9 as stated. The loop runs, A (1100) was offered at clock
1000 and the timer has fired; then `Stop()` is called and its signal sits in the
stop channel. Both the stop case and the timer case of `select` are ready, and
`select` may take the timer case: `handleTimeout` runs, at clock 1100, and delivers
A after the stop signal was placed. -/
theorem exited_is_terminal_counterexample :
    System.run stopClock
        [Action.callStart, Action.callOffer itemA, Action.selectOffer, Action.timerFire,
          Action.callStop] (System.fresh 0) =
      some { dq := { pq := ⟨[itemA]⟩, t := Timer.fired, tick := 1, expireCh := [] },
             stopCh := 1, offerCh := none, loop := LoopState.running } ∧
    System.step stopClock Action.selectTimeout
        { dq := { pq := ⟨[itemA]⟩, t := Timer.fired, tick := 1, expireCh := [] },
          stopCh := 1, offerCh := none, loop := LoopState.running } =
      some { dq := { pq := ⟨[]⟩, t := Timer.stopped, tick := 2, expireCh := [itemA] },
             stopCh := 1, offerCh := none, loop := LoopState.running } := by
  decide

/-- C10, as amended. A call of `Stop()` completes at once when the stop channel is
empty, and then only fills the channel: heap, timer, output and loop are unchanged.
When the channel already holds a signal the send cannot complete, and while no loop
runs (it has exited or was never started) it never can, whatever happens
afterwards short of a further `Start()`. A further `Start()` launches a loop that
can receive the buffered signal, after which the send completes. -/
theorem stop_send_completes (nowFunc : Nat → Int) (s : System) :
    (s.stopCh = 0 →
      System.step nowFunc Action.callStop s = some { s with stopCh := 1 }) ∧
    (1 ≤ s.stopCh → System.step nowFunc Action.callStop s = none) ∧
    (s.loop ≠ LoopState.running → 1 ≤ s.stopCh →
      ∀ acts s1, Action.callStart ∉ acts → System.run nowFunc acts s = some s1 →
        System.step nowFunc Action.callStop s1 = none) ∧
    (s.loop ≠ LoopState.running → s.stopCh = 1 →
      System.run nowFunc [Action.callStart, Action.selectStop, Action.callStop] s =
        some { s with stopCh := 1, loop := LoopState.exited, spare := 0 }) := by
  refine ⟨?_, System.callStop_blocked nowFunc s, ?_, ?_⟩
  · intro h
    simp [System.step, h]
  · intro hl h acts s1 hstart hr
    exact System.callStop_blocked_forever nowFunc s s1 acts hl h hstart hr
  · intro hl h
    simp [System.run, System.step, hl, h]

/-- Witness of C10: the first `Stop()` on a running loop completes and only fills
the stop channel. -/
theorem stop_send_completes_witness :
    System.step scenarioClock Action.callStop
        { dq := NewDelayQueue 0, stopCh := 0, offerCh := none, loop := LoopState.running } =
      some { dq := NewDelayQueue 0, stopCh := 1, offerCh := none, loop := LoopState.running } :=
  (stop_send_completes scenarioClock
    { dq := NewDelayQueue 0, stopCh := 0, offerCh := none, loop := LoopState.running }).1 rfl

/-- Counterexample to C10 as stated. `Start()`, `Stop()`, the loop takes the stop
case and exits, and a second `Stop()` fills the channel again. A third `Stop()`
cannot complete, and as long as `Start()` is not called again it never can: the loop
has exited and nothing receives from the stop channel any more. -/
theorem stop_send_completes_counterexample :
    System.run scenarioClock
        [Action.callStart, Action.callStop, Action.selectStop, Action.callStop]
        (System.fresh 0) =
      some { dq := NewDelayQueue 0, stopCh := 1, offerCh := none, loop := LoopState.exited } ∧
    System.step scenarioClock Action.callStop
        { dq := NewDelayQueue 0, stopCh := 1, offerCh := none, loop := LoopState.exited } =
      none ∧
    ∀ acts s1, Action.callStart ∉ acts →
      System.run scenarioClock acts
          { dq := NewDelayQueue 0, stopCh := 1, offerCh := none, loop := LoopState.exited } =
        some s1 →
      System.step scenarioClock Action.callStop s1 = none :=
  ⟨by decide, by decide, fun acts s1 hstart hr =>
    System.callStop_blocked_forever scenarioClock _ s1 acts (by decide) (le_refl _) hstart hr⟩

namespace System

theorem step_no_wakeup (nowFunc : Nat → Int) (a : Action) (s s1 : System)
    (ht : s.dq.t = Timer.stopped) (ho : s.offerCh = none)
    (ha : ∀ item, a ≠ Action.callOffer item) (h : step nowFunc a s = some s1) :
    s1.dq = s.dq ∧ s1.offerCh = none := by
  cases a with
  | callStart =>
    simp only [step] at h
    split at h
    · simp only [Option.some.injEq] at h
      subst h
      exact ⟨rfl, ho⟩
    · simp only [Option.some.injEq] at h
      subst h
      exact ⟨rfl, ho⟩
  | callStop =>
    simp only [step] at h
    split at h
    · simp only [Option.some.injEq] at h
      subst h
      exact ⟨rfl, ho⟩
    · cases h
  | callOffer item => exact absurd rfl (ha item)
  | timerFire => simp [step, ht, Timer.isArmed] at h
  | selectStop =>
    simp only [step] at h
    split at h
    · split at h
      · simp only [Option.some.injEq] at h
        subst h
        exact ⟨rfl, ho⟩
      · simp only [Option.some.injEq] at h
        subst h
        exact ⟨rfl, ho⟩
    · cases h
  | selectOffer => simp [step, ho] at h
  | selectTimeout => simp [step, ht] at h

theorem run_no_wakeup (nowFunc : Nat → Int) (acts : List Action) :
    ∀ (s s1 : System), s.dq.t = Timer.stopped → s.offerCh = none →
      (∀ item, Action.callOffer item ∉ acts) → run nowFunc acts s = some s1 →
      s1.dq = s.dq := by
  induction acts with
  | nil =>
    intro s s1 _ _ _ h
    simp only [run, Option.some.injEq] at h
    subst h
    rfl
  | cons a as ih =>
    intro s s1 ht ho ha h
    simp only [run] at h
    cases hs : step nowFunc a s with
    | none => rw [hs] at h; cases h
    | some s2 =>
      rw [hs] at h
      obtain ⟨h1, h2⟩ := step_no_wakeup nowFunc a s s2 ht ho
        (fun item he => ha item (by rw [he]; exact List.mem_cons_self _ _)) hs
      have := ih s2 s1 (by rw [h1]; exact ht) h2
        (fun item hm => ha item (List.mem_cons_of_mem _ hm)) h
      rw [this, h1]

end System

/-- C5, the code at the failing input. A fresh queue, the clock at 1000, an item
expiring at 900 is offered: after `handleOffer` the heap holds the item, the timer
is neither armed nor fired, and no step other than a further offer is possible. -/
theorem past_due_offer_leaves_timer_stopped :
    Reach (fun _ => 1000) anyOffer [⟨1, 900⟩]
      { pq := ⟨[⟨1, 900⟩]⟩, t := Timer.stopped, tick := 1, expireCh := [] } ∧
    ((NewDelayQueue 0).handleOffer (fun _ => 1000) ⟨1, 900⟩).pq.items = [⟨1, 900⟩] ∧
    ((NewDelayQueue 0).handleOffer (fun _ => 1000) ⟨1, 900⟩).t.isArmed = false ∧
    ((NewDelayQueue 0).handleOffer (fun _ => 1000) ⟨1, 900⟩).t.live = false :=
  ⟨Reach.offer ⟨1, 900⟩ (Reach.fresh 0) trivial, by decide, by decide, by decide⟩

/-- C6, the code at the failing input. The clock is constantly 1000. An item
expiring at 2000 is offered (timer armed for 2000), then an item expiring at 900,
already due: `handleOffer` calls `refreshTimer`, which stops the timer and reports
that the item is due, and `handleOffer` drops that report. Both items stay in the
heap with no wakeup on its way: whatever the goroutines and the runtime do next,
short of a further `Offer`, the state of the queue never changes again. -/
theorem past_due_offer_cancels_wakeup :
    Reach (fun _ => 1000) anyOffer [⟨1, 2000⟩]
      { pq := ⟨[⟨1, 2000⟩]⟩, t := Timer.armed 2000 1000000000, tick := 1, expireCh := [] } ∧
    (Item.mk 2 900).Expiration ≤ 1000 ∧
    (delayQueue.mk ⟨[⟨1, 2000⟩]⟩ (Timer.armed 2000 1000000000) 1 []).handleOffer
        (fun _ => 1000) ⟨2, 900⟩
      = { pq := ⟨[⟨2, 900⟩, ⟨1, 2000⟩]⟩, t := Timer.stopped, tick := 2, expireCh := [] } ∧
    (delayQueue.mk ⟨[⟨2, 900⟩, ⟨1, 2000⟩]⟩ Timer.stopped 2 []).t.live = false ∧
    ∀ acts s1, (∀ item, Action.callOffer item ∉ acts) →
      System.run (fun _ => 1000) acts
          { dq := { pq := ⟨[⟨2, 900⟩, ⟨1, 2000⟩]⟩, t := Timer.stopped, tick := 2,
                    expireCh := [] },
            stopCh := 0, offerCh := none, loop := LoopState.running } = some s1 →
      s1.dq = { pq := ⟨[⟨2, 900⟩, ⟨1, 2000⟩]⟩, t := Timer.stopped, tick := 2,
                expireCh := [] } :=
  ⟨Reach.offer ⟨1, 2000⟩ (Reach.fresh 0) trivial, by decide, by decide, by decide,
    fun acts s1 ha hr => System.run_no_wakeup (fun _ => 1000) acts _ s1 rfl rfl ha hr⟩

theorem tmod_bounds_of_nonneg {x m : Int} (hm : 0 < m) (hx : 0 ≤ x) :
    0 ≤ Int.tmod x m ∧ Int.tmod x m < m ∧ Int.tmod x m ≤ x := by
  refine ⟨Int.tmod_nonneg m hx, Int.tmod_lt_of_pos x hm, ?_⟩
  have h1 := Int.tmod_add_tdiv x m
  have h2 : 0 ≤ Int.tdiv x m := Int.tdiv_nonneg hx (le_of_lt hm)
  have h3 : 0 ≤ m * Int.tdiv x m := Int.mul_nonneg (le_of_lt hm) h2
  omega

theorem tmod_neg_left (x m : Int) : Int.tmod (-x) m = -(Int.tmod x m) := by
  rw [Int.tmod_def, Int.tmod_def, Int.neg_tdiv]
  ring

theorem tmod_bounds_of_nonpos {x m : Int} (hm : 0 < m) (hx : x ≤ 0) :
    -m < Int.tmod x m ∧ Int.tmod x m ≤ 0 ∧ x ≤ Int.tmod x m := by
  have h := tmod_bounds_of_nonneg hm (show 0 ≤ -x by omega)
  rw [tmod_neg_left] at h
  obtain ⟨h1, h2, h3⟩ := h
  refine ⟨?_, ?_, ?_⟩ <;> omega

/-- C14. For every `int64` `x` and every `m > 0`, `truncate(x, m)` is `m` times the
quotient of `x` by `m` truncated toward zero: the remainder and the difference
`x - x%m` stay inside `int64`, and the result is a multiple of `m`, has the sign of
`x` or is 0, is at most `x` in absolute value and differs from `x` by less than `m`.
For every `m <= 0`, `truncate(x, m)` is `x`. -/
theorem truncate_toward_zero (x m : Int) (hx : isInt64 x) :
    (0 < m →
      truncate x m = m * Int.tdiv x m ∧
      isInt64 (Int.tmod x m) ∧
      isInt64 (x - Int.tmod x m) ∧
      truncate x m = x - Int.tmod x m ∧
      m ∣ truncate x m ∧
      (0 < truncate x m → 0 < x) ∧
      (truncate x m < 0 → x < 0) ∧
      |truncate x m| ≤ |x| ∧
      |x - truncate x m| < m) ∧
    (m ≤ 0 → truncate x m = x) := by
  constructor
  · intro hm
    have hdef := Int.tmod_add_tdiv x m
    have hin : isInt64 (Int.tmod x m) ∧ isInt64 (x - Int.tmod x m) ∧
        (0 < x - Int.tmod x m → 0 < x) ∧ (x - Int.tmod x m < 0 → x < 0) ∧
        |x - Int.tmod x m| ≤ |x| ∧ |Int.tmod x m| < m := by
      unfold isInt64 minInt64 maxInt64 at hx ⊢
      rcases le_total 0 x with h0 | h0
      · obtain ⟨h1, h2, h3⟩ := tmod_bounds_of_nonneg hm h0
        rw [abs_of_nonneg (show 0 ≤ x - Int.tmod x m by omega), abs_of_nonneg h0,
          abs_of_nonneg h1]
        refine ⟨⟨?_, ?_⟩, ⟨?_, ?_⟩, ?_, ?_, ?_, ?_⟩ <;> omega
      · obtain ⟨h1, h2, h3⟩ := tmod_bounds_of_nonpos hm h0
        rw [abs_of_nonpos (show x - Int.tmod x m ≤ 0 by omega), abs_of_nonpos h0,
          abs_of_nonpos h2]
        refine ⟨⟨?_, ?_⟩, ⟨?_, ?_⟩, ?_, ?_, ?_, ?_⟩ <;> omega
    obtain ⟨k1, k2, k3, k4, k5, k6⟩ := hin
    have ht : truncate x m = x - Int.tmod x m := by
      unfold truncate
      rw [if_neg (not_le.2 hm), wrapInt64_of_isInt64 k2]
    have hmul : x - Int.tmod x m = m * Int.tdiv x m := by omega
    rw [ht]
    refine ⟨hmul, k1, k2, rfl, ?_, k3, k4, k5, ?_⟩
    · rw [hmul]
      exact Dvd.intro _ rfl
    · have : x - (x - Int.tmod x m) = Int.tmod x m := by ring
      rw [this]
      exact k6
  · intro hm
    unfold truncate
    rw [if_pos hm]

/-- Witness of C14: `truncate(-7, 3)` is -6, that is 3 times the truncated
quotient -2. -/
theorem truncate_toward_zero_witness :
    truncate (-7) 3 = 3 * Int.tdiv (-7) 3 ∧ truncate (-7) 3 = -6 :=
  ⟨((truncate_toward_zero (-7) 3 (by decide)).1 (by decide)).1, by decide⟩

theorem wrapInt64_duration_le {delta : Int} (h0 : 0 < delta) :
    wrapInt64 (delta * Millisecond) ≤ delta * Millisecond := by
  by_cases h1 : delta ≤ 9223372036854
  · exact le_of_eq (wrapInt64_duration h0 h1)
  · have h2 := (wrapInt64_isInt64 (delta * Millisecond)).2
    unfold maxInt64 at h2
    unfold Millisecond at h2 ⊢
    omega

/-- C15, as amended. Timer duration conversion. Whenever `refreshTimer` arms the
timer, that is for every positive `int64` delta, the duration handed to `Reset`, the
product of delta and `time.Millisecond` computed in `int64` with wraparound, is
exactly delta milliseconds when delta is at most 9223372036854, and is never greater
than delta milliseconds. The method and the free function of `utils.go` hand over the
same duration. When the subtraction `expireTime - now` did not wrap, the clock value
read plus the duration does not pass the target expiration: the timer can fire early
but not later than the target. -/
theorem reset_duration_bound (nowFunc : Nat → Int) (dq : delayQueue) (expireTime : Int)
    (hpos : 0 < wrapInt64 (expireTime - nowFunc dq.tick)) :
    (dq.refreshTimer nowFunc expireTime).2.t =
      Timer.armed expireTime
        (wrapInt64 (wrapInt64 (expireTime - nowFunc dq.tick) * Millisecond)) ∧
    (DelayWheel.refreshTimer dq.t (nowFunc dq.tick) expireTime).2 =
      Timer.armed expireTime
        (wrapInt64 (wrapInt64 (expireTime - nowFunc dq.tick) * Millisecond)) ∧
    (wrapInt64 (expireTime - nowFunc dq.tick) ≤ 9223372036854 →
      wrapInt64 (wrapInt64 (expireTime - nowFunc dq.tick) * Millisecond) =
        wrapInt64 (expireTime - nowFunc dq.tick) * Millisecond) ∧
    wrapInt64 (wrapInt64 (expireTime - nowFunc dq.tick) * Millisecond) ≤
      wrapInt64 (expireTime - nowFunc dq.tick) * Millisecond ∧
    (NoWrap expireTime (nowFunc dq.tick) →
      nowFunc dq.tick * Millisecond +
          wrapInt64 (wrapInt64 (expireTime - nowFunc dq.tick) * Millisecond) ≤
        expireTime * Millisecond) := by
  refine ⟨?_, ?_, wrapInt64_duration hpos, wrapInt64_duration_le hpos, ?_⟩
  · rw [delayQueue.refreshTimer_snd]
    simp [hpos]
  · unfold DelayWheel.refreshTimer
    simp only [Timer.stop_drain]
    simp [not_le.2 hpos, Timer.Reset]
  · intro hnw
    have h1 := wrapInt64_duration_le hpos
    rw [delta_eq_of_noWrap hnw] at h1 ⊢
    unfold Millisecond at h1 ⊢
    omega

/-- Witness of C15: target 1050 at clock 1000, delta 50, duration 50000000
nanoseconds. -/
theorem reset_duration_bound_witness :
    ((delayQueue.mk ⟨[itemB]⟩ Timer.stopped 0 []).refreshTimer scenarioClock 1050).2.t =
      Timer.armed 1050 (wrapInt64 (wrapInt64 (1050 - scenarioClock 0) * Millisecond)) ∧
    wrapInt64 (wrapInt64 (1050 - scenarioClock 0) * Millisecond) = 50000000 :=
  ⟨(reset_duration_bound scenarioClock (delayQueue.mk ⟨[itemB]⟩ Timer.stopped 0 []) 1050
      (by decide)).1, by decide⟩

/-- Counterexample to C15 as stated. Target the smallest `int64` at a clock showing
the largest `int64`: the target is long past, but the `int64` subtraction wraps to
the positive delta 1, `refreshTimer` returns true and arms the timer for 1000000
nanoseconds, so the timer fires later than the target expiration. -/
theorem reset_duration_counterexample :
    isInt64 minInt64 ∧ isInt64 maxInt64 ∧
    wrapInt64 (minInt64 - maxInt64) = 1 ∧
    (delayQueue.mk ⟨[]⟩ Timer.stopped 0 []).refreshTimer (fun _ => maxInt64) minInt64 =
      (true, { pq := ⟨[]⟩, t := Timer.armed minInt64 1000000, tick := 1, expireCh := [] }) ∧
    minInt64 < maxInt64 ∧
    minInt64 * Millisecond < maxInt64 * Millisecond + 1000000 := by
  decide

theorem truncate_eq_mul_tdiv {x m : Int} (hx : isInt64 x) (hm : 0 < m) :
    truncate x m = m * Int.tdiv x m ∧ isInt64 (m * Int.tdiv x m) := by
  have hdef := Int.tmod_add_tdiv x m
  have hin : isInt64 (x - Int.tmod x m) := by
    unfold isInt64 minInt64 maxInt64 at hx ⊢
    rcases le_total 0 x with h0 | h0
    · obtain ⟨h1, h2, h3⟩ := tmod_bounds_of_nonneg hm h0
      constructor <;> omega
    · obtain ⟨h1, h2, h3⟩ := tmod_bounds_of_nonpos hm h0
      constructor <;> omega
  have hmul : x - Int.tmod x m = m * Int.tdiv x m := by omega
  constructor
  · unfold truncate
    rw [if_neg (not_le.2 hm), wrapInt64_of_isInt64 hin, hmul]
  · rw [← hmul]
    exact hin

/-- C16, as amended. Millisecond round trip, a time being its `int64` count of
nanoseconds. For every `ms` whose product with 1000000 fits `int64`, that is from
-9223372036854 to 9223372036854, `msToTime(ms)` is the instant `ms` milliseconds
after the epoch and `timeToMs` recovers `ms`. For every time `t`,
`msToTime(timeToMs(t))` is the count of `t` truncated toward zero to a multiple of
1000000, equal to `truncate(nanos, 1000000)`. -/
theorem ms_round_trip (ms : Int) (t : Time) (hms : isInt64 (ms * Millisecond))
    (ht : isInt64 t.unixNano) :
    (msToTime ms).unixNano = ms * Millisecond ∧
    timeToMs (msToTime ms) = ms ∧
    msToTime (timeToMs t) = ⟨truncate t.unixNano Millisecond⟩ ∧
    (msToTime (timeToMs t)).unixNano = Millisecond * Int.tdiv t.unixNano Millisecond := by
  have h1 : (msToTime ms).unixNano = ms * Millisecond := by
    unfold msToTime
    exact wrapInt64_of_isInt64 hms
  have hM : (0 : Int) < Millisecond := by decide
  obtain ⟨k1, k2⟩ := truncate_eq_mul_tdiv ht hM
  have h3 : (msToTime (timeToMs t)).unixNano = Millisecond * Int.tdiv t.unixNano Millisecond := by
    unfold msToTime timeToMs
    simp only
    rw [mul_comm, wrapInt64_of_isInt64 k2]
  refine ⟨h1, ?_, ?_, h3⟩
  · unfold timeToMs
    rw [h1]
    exact Int.mul_tdiv_cancel ms (ne_of_gt hM)
  · have : msToTime (timeToMs t) = ⟨(msToTime (timeToMs t)).unixNano⟩ := rfl
    rw [this, h3, k1]

/-- Witness of C16: -3 milliseconds, and the instant -1500000 nanoseconds, which
is truncated to -1000000. -/
theorem ms_round_trip_witness :
    (msToTime (-3)).unixNano = -3 * Millisecond ∧
    timeToMs (msToTime (-3)) = -3 ∧
    msToTime (timeToMs ⟨-1500000⟩) = ⟨truncate (-1500000) Millisecond⟩ ∧
    (msToTime (timeToMs ⟨-1500000⟩)).unixNano = Millisecond * Int.tdiv (-1500000) Millisecond :=
  ms_round_trip (-3) ⟨-1500000⟩ (by decide) (by decide)

/-- Counterexample to C16 as stated. For `ms = 2 ^ 62`, an `int64`, the product
`ms * 1000000` wraps to 0 in `int64`: `msToTime` returns the epoch, not the instant
`ms` milliseconds after it, and `timeToMs` gives back 0. -/
theorem ms_round_trip_counterexample :
    isInt64 (2 ^ 62) ∧
    msToTime (2 ^ 62) = ⟨0⟩ ∧
    timeToMs (msToTime (2 ^ 62)) = 0 ∧
    timeToMs (msToTime (2 ^ 62)) ≠ 2 ^ 62 := by
  decide

namespace delayQueue

theorem handleTimeout_armed_duration (nowFunc : Nat → Int) (dq : delayQueue)
    (ht : dq.t = Timer.stopped) :
    ∀ tgt d, (handleTimeout nowFunc dq).t = Timer.armed tgt d →
      1 ≤ (handleTimeout nowFunc dq).tick ∧
      0 < wrapInt64 (tgt - nowFunc ((handleTimeout nowFunc dq).tick - 1)) ∧
      d = wrapInt64
        (wrapInt64 (tgt - nowFunc ((handleTimeout nowFunc dq).tick - 1)) * Millisecond) := by
  refine handleTimeout_rule nowFunc (fun d => d.t = Timer.stopped)
    (fun r => ∀ tgt d, r.t = Timer.armed tgt d →
      1 ≤ r.tick ∧ 0 < wrapInt64 (tgt - nowFunc (r.tick - 1)) ∧
      d = wrapInt64 (wrapInt64 (tgt - nowFunc (r.tick - 1)) * Millisecond)) ?_ ?_ ?_ dq ht
  · intro d top _ _ _
    rfl
  · intro d top _ _ hpos tgt du hq
    simp only [Timer.armed.injEq] at hq
    obtain ⟨h1, h2⟩ := hq
    subst h1
    simp only [Nat.add_sub_cancel]
    exact ⟨Nat.le_add_left _ _, hpos, h2.symm⟩
  · intro d hP _ tgt du hq
    rw [hP] at hq
    cases hq

end delayQueue

theorem Reach.armed_duration {nowFunc : Nat → Int} {ok : delayQueue → Item → Prop}
    {offered : List Item} {dq : delayQueue} (h : Reach nowFunc ok offered dq) :
    ∀ tgt d, dq.t = Timer.armed tgt d →
      1 ≤ dq.tick ∧ 0 < wrapInt64 (tgt - nowFunc (dq.tick - 1)) ∧
      d = wrapInt64 (wrapInt64 (tgt - nowFunc (dq.tick - 1)) * Millisecond) := by
  induction h with
  | fresh size =>
    intro tgt d hq
    simp [NewDelayQueue, Timer.Stop] at hq
  | @offer offered dq item _ _ ih =>
    intro tgt d hq
    by_cases hc : dq.Len = 0 ∨ ∃ top, dq.pq.Peek = some top ∧ item.Expiration < top.Expiration
    · rw [delayQueue.handleOffer_refresh _ _ _ hc, delayQueue.refreshTimer_snd] at hq ⊢
      simp only at hq ⊢
      split at hq
      · rename_i hpos
        simp only [Timer.armed.injEq] at hq
        obtain ⟨h1, h2⟩ := hq
        subst h1
        simp only [Nat.add_sub_cancel]
        exact ⟨Nat.le_add_left _ _, hpos, h2.symm⟩
      · cases hq
    · rw [delayQueue.handleOffer_keep _ _ _ hc] at hq ⊢
      exact ih tgt d hq
  | fire _ _ _ =>
    intro tgt d hq
    cases hq
  | timeout _ _ _ => exact delayQueue.handleTimeout_armed_duration nowFunc _ rfl

/-- C13, as amended. Deadline bound invariant. In every state reachable from a
fresh queue, for every clock and every offered item, whenever the timer is armed,
the target expiration it was last re-armed to is the expiration of the current heap
minimum, hence at most the expiration of every item of the heap. The armed duration
is the one computed at the last clock read and is at most the `int64` delta of that
read in milliseconds; when that subtraction did not wrap, the clock value read plus
the duration does not pass the target, so that the timer does not fire later than
the earliest pending item is due. -/
theorem deadline_bound (nowFunc : Nat → Int) (offered : List Item) (dq : delayQueue)
    (h : Reach nowFunc anyOffer offered dq) (tgt d : Int) (ht : dq.t = Timer.armed tgt d) :
    (∃ top, dq.pq.Peek = some top ∧ tgt = top.Expiration ∧ tgt ≤ top.Expiration) ∧
    (∀ x ∈ dq.pq.items, tgt ≤ x.Expiration) ∧
    1 ≤ dq.tick ∧
    d = wrapInt64 (wrapInt64 (tgt - nowFunc (dq.tick - 1)) * Millisecond) ∧
    d ≤ wrapInt64 (tgt - nowFunc (dq.tick - 1)) * Millisecond ∧
    (NoWrap tgt (nowFunc (dq.tick - 1)) →
      nowFunc (dq.tick - 1) * Millisecond + d ≤ tgt * Millisecond) := by
  obtain ⟨top, hp, he⟩ := h.armed_at_min tgt d ht
  obtain ⟨h1, h2, h3⟩ := h.armed_duration tgt d ht
  have h4 := wrapInt64_duration_le h2
  refine ⟨⟨top, hp, he.symm, le_of_eq he.symm⟩, ?_, h1, h3, ?_, ?_⟩
  · intro x hx
    rw [← he]
    exact PriorityQueue.Peek_le hp x hx
  · rw [h3]
    exact h4
  · intro hnw
    rw [h3]
    rw [delta_eq_of_noWrap hnw] at h4 ⊢
    unfold Millisecond at h4 ⊢
    omega

/-- Witness of C13: the scenario of the spec after both offers, the timer armed for
1050, the expiration of B, the minimum of the heap. -/
theorem deadline_bound_witness :
    (∀ x ∈ [itemB, itemA], (1050 : Int) ≤ x.Expiration) ∧
    (50000000 : Int) ≤ wrapInt64 (1050 - scenarioClock (2 - 1)) * Millisecond :=
  ⟨(deadline_bound scenarioClock [itemA, itemB]
      { pq := ⟨[itemB, itemA]⟩, t := Timer.armed 1050 50000000, tick := 2, expireCh := [] }
      (scenario_offers.mono (any_anyOffer _)) 1050 50000000 rfl).2.1,
    (deadline_bound scenarioClock [itemA, itemB]
      { pq := ⟨[itemB, itemA]⟩, t := Timer.armed 1050 50000000, tick := 2, expireCh := [] }
      (scenario_offers.mono (any_anyOffer _)) 1050 50000000 rfl).2.2.2.2.1⟩

/-- Counterexample to C13 as stated. The clock is constantly `2 ^ 62 + 10 ^ 13` and
an item expiring at `-(2 ^ 62)` is offered to a fresh queue. The item is overdue,
but the `int64` subtraction wraps to a positive delta: the timer is armed for the
expiration of the heap minimum with a positive duration of 8446744073709551616
nanoseconds, about 267 years, so it fires long after the earliest pending item is
due. -/
theorem deadline_bound_counterexample :
    isInt64 (2 ^ 62 + 10 ^ 13) ∧ isInt64 (-(2 ^ 62)) ∧
    Reach lateClock anyOffer [⟨1, -(2 ^ 62)⟩]
      { pq := ⟨[⟨1, -(2 ^ 62)⟩]⟩, t := Timer.armed (-(2 ^ 62)) 8446744073709551616,
        tick := 1, expireCh := [] } ∧
    (Item.mk 1 (-(2 ^ 62))).Expiration < lateClock 0 ∧
    (Item.mk 1 (-(2 ^ 62))).Expiration * Millisecond <
      lateClock 0 * Millisecond + 8446744073709551616 :=
  ⟨by decide, by decide, Reach.offer ⟨1, -(2 ^ 62)⟩ (Reach.fresh 0) trivial, by decide,
    by decide⟩

namespace delayQueue

theorem handleTimeout_constant_clock (nowFunc : Nat → Int) (dq : delayQueue) (now : Int)
    (hconst : ∀ n, dq.tick ≤ n → nowFunc n = now)
    (hnw : ∀ x ∈ dq.pq.items, NoWrap x.Expiration now)
    (harmed : dq.t.isArmed = false) :
    ∃ out : List Item,
      (handleTimeout nowFunc dq).expireCh = dq.expireCh ++ out ∧
      List.Perm (out ++ (handleTimeout nowFunc dq).pq.items) dq.pq.items ∧
      (∀ x ∈ out, x.Expiration ≤ now) ∧
      out.Pairwise (fun a b => a.Expiration ≤ b.Expiration) ∧
      (∀ y ∈ (handleTimeout nowFunc dq).pq.items, now < y.Expiration) ∧
      (((handleTimeout nowFunc dq).pq.items = [] ∧
          (handleTimeout nowFunc dq).t.isArmed = false) ∨
        ∃ top du, (handleTimeout nowFunc dq).pq.Peek = some top ∧ now < top.Expiration ∧
          (handleTimeout nowFunc dq).t = Timer.armed top.Expiration du) := by
  refine handleTimeout_rule nowFunc
    (fun d => dq.tick ≤ d.tick ∧ d.t.isArmed = false ∧
      (∀ x ∈ d.pq.items, NoWrap x.Expiration now) ∧
      ∃ out : List Item, d.expireCh = dq.expireCh ++ out ∧
        List.Perm (out ++ d.pq.items) dq.pq.items ∧
        (∀ x ∈ out, x.Expiration ≤ now) ∧
        out.Pairwise (fun a b => a.Expiration ≤ b.Expiration) ∧
        (∀ x ∈ out, ∀ y ∈ d.pq.items, x.Expiration ≤ y.Expiration))
    (fun r => ∃ out : List Item, r.expireCh = dq.expireCh ++ out ∧
        List.Perm (out ++ r.pq.items) dq.pq.items ∧
        (∀ x ∈ out, x.Expiration ≤ now) ∧
        out.Pairwise (fun a b => a.Expiration ≤ b.Expiration) ∧
        (∀ y ∈ r.pq.items, now < y.Expiration) ∧
        ((r.pq.items = [] ∧ r.t.isArmed = false) ∨
          ∃ top du, r.pq.Peek = some top ∧ now < top.Expiration ∧
            r.t = Timer.armed top.Expiration du))
    ?_ ?_ ?_ dq
    ⟨le_refl _, harmed, hnw, [], by simp, by simp, by simp, by simp, by simp⟩
  · rintro d top ⟨htick, _, hw, out, h1, h2, h3, h4, h5⟩ hp hle
    have hm := PriorityQueue.Peek_mem hp
    rw [hconst d.tick htick, delta_eq_of_noWrap (hw top hm)] at hle
    refine ⟨Nat.le_succ_of_le htick, rfl, fun x hx => hw x (List.mem_of_mem_erase hx),
      out ++ [top], by simp [h1], ?_, ?_, ?_, ?_⟩
    · simp only [List.append_assoc, List.singleton_append]
      exact (List.Perm.append_left out (List.perm_cons_erase hm).symm).trans h2
    · intro x hx
      simp only [List.mem_append, List.mem_singleton] at hx
      rcases hx with hx | rfl
      · exact h3 x hx
      · omega
    · rw [List.pairwise_append]
      refine ⟨h4, List.pairwise_singleton _ _, ?_⟩
      intro a ha b hb
      rw [List.mem_singleton] at hb
      subst hb
      exact h5 a ha b hm
    · intro x hx y hy
      simp only [List.mem_append, List.mem_singleton] at hx
      rcases hx with hx | rfl
      · exact h5 x hx y (List.mem_of_mem_erase hy)
      · exact PriorityQueue.Peek_le hp y (List.mem_of_mem_erase hy)
  · rintro d top ⟨htick, _, hw, out, h1, h2, h3, h4, _⟩ hp hpos
    have hm := PriorityQueue.Peek_mem hp
    rw [hconst d.tick htick, delta_eq_of_noWrap (hw top hm)] at hpos
    refine ⟨out, h1, h2, h3, h4, ?_, Or.inr ⟨top, _, hp, by omega, rfl⟩⟩
    intro y hy
    have := PriorityQueue.Peek_le hp y hy
    omega
  · rintro d ⟨_, ha, _, out, h1, h2, h3, h4, _⟩ he
    refine ⟨out, h1, h2, h3, h4, ?_, Or.inl ⟨he, ha⟩⟩
    intro y hy
    rw [he] at hy
    cases hy

end delayQueue

/-- C12, as amended. Timer-fire drain postcondition. For every heap, entered as
`run` enters it with a timer that is not armed, and a clock that is constant during
the call, the subtraction `Expiration() - now` fitting `int64` for the items of the
heap: `handleTimeout` sends exactly the items whose expiration is at most `now`, in
non-decreasing order of expiration, and leaves in the heap exactly the items whose
expiration is after `now`. On return either the heap is empty and the timer is not
armed, or the heap is not empty, its minimum is strictly in the future and the timer
is armed for exactly the expiration of that minimum. The loop terminates: as many
iterations as the heap has items always suffice, for every clock. -/
theorem drain_postcondition (nowFunc : Nat → Int) (dq : delayQueue) (now : Int)
    (hconst : ∀ n, dq.tick ≤ n → nowFunc n = now)
    (hnw : ∀ x ∈ dq.pq.items, NoWrap x.Expiration now)
    (harmed : dq.t.isArmed = false) :
    (dq.handleTimeout nowFunc).expireCh =
      dq.expireCh ++ emitted dq (dq.handleTimeout nowFunc) ∧
    List.Perm (emitted dq (dq.handleTimeout nowFunc))
      (dq.pq.items.filter (fun x => decide (x.Expiration ≤ now))) ∧
    (emitted dq (dq.handleTimeout nowFunc)).Pairwise
      (fun a b => a.Expiration ≤ b.Expiration) ∧
    List.Perm (dq.handleTimeout nowFunc).pq.items
      (dq.pq.items.filter (fun x => decide (now < x.Expiration))) ∧
    (((dq.handleTimeout nowFunc).pq.items = [] ∧
        (dq.handleTimeout nowFunc).t.isArmed = false) ∨
      ∃ top du, (dq.handleTimeout nowFunc).pq.Peek = some top ∧ now < top.Expiration ∧
        (dq.handleTimeout nowFunc).t = Timer.armed top.Expiration du) ∧
    (∀ fuel, dq.pq.Len ≤ fuel →
      delayQueue.handleTimeoutLoop nowFunc fuel dq = dq.handleTimeout nowFunc) := by
  obtain ⟨out, h1, h2, h3, h4, h5, h6⟩ :=
    delayQueue.handleTimeout_constant_clock nowFunc dq now hconst hnw harmed
  have he : emitted dq (dq.handleTimeout nowFunc) = out := by
    unfold emitted
    rw [h1, List.drop_left]
  rw [he]
  have hout : out.filter (fun x => decide (x.Expiration ≤ now)) = out :=
    List.filter_eq_self.2 (fun a ha => by simpa using h3 a ha)
  have hout2 : out.filter (fun x => decide (now < x.Expiration)) = [] :=
    List.filter_eq_nil_iff.2 (fun a ha => by
      have := h3 a ha
      simp only [decide_eq_true_eq, not_lt]
      exact this)
  have hrest : (dq.handleTimeout nowFunc).pq.items.filter
      (fun x => decide (x.Expiration ≤ now)) = [] :=
    List.filter_eq_nil_iff.2 (fun a ha => by
      have := h5 a ha
      simp only [decide_eq_true_eq, not_le]
      exact this)
  have hrest2 : (dq.handleTimeout nowFunc).pq.items.filter
      (fun x => decide (now < x.Expiration)) = (dq.handleTimeout nowFunc).pq.items :=
    List.filter_eq_self.2 (fun a ha => by simpa using h5 a ha)
  refine ⟨h1, ?_, h4, ?_, h6, fun fuel hf => delayQueue.handleTimeoutLoop_fuel nowFunc fuel dq hf⟩
  · have := h2.filter (fun x => decide (x.Expiration ≤ now))
    rw [List.filter_append, hout, hrest, List.append_nil] at this
    exact this
  · have := h2.filter (fun x => decide (now < x.Expiration))
    rw [List.filter_append, hout2, hrest2, List.nil_append] at this
    exact this

/-- Witness of C12: the heap holds B (1050) and A (1100), the clock is constantly
1075: B is sent, A stays, the timer is armed for 1100. -/
theorem drain_postcondition_witness :
    emitted (delayQueue.mk ⟨[itemB, itemA]⟩ Timer.stopped 2 [])
        ((delayQueue.mk ⟨[itemB, itemA]⟩ Timer.stopped 2 []).handleTimeout (fun _ => 1075))
      = [itemB] ∧
    List.Perm
      ((delayQueue.mk ⟨[itemB, itemA]⟩ Timer.stopped 2 []).handleTimeout
        (fun _ => 1075)).pq.items
      ([itemB, itemA].filter (fun x => decide ((1075 : Int) < x.Expiration))) :=
  ⟨by decide,
    (drain_postcondition (fun _ => 1075) (delayQueue.mk ⟨[itemB, itemA]⟩ Timer.stopped 2 [])
      1075 (fun _ _ => rfl) (by decide) rfl).2.2.2.1⟩

/-- Counterexample to C12 as stated. The heap holds one item expiring at the
smallest `int64` and the clock is constantly 1: the item is due, but the `int64`
subtraction `minInt64 - 1` wraps to the largest `int64`, `refreshTimer` arms the
timer and `handleTimeout` returns without sending the item, the minimum of the heap
being in the past. -/
theorem drain_postcondition_counterexample :
    isInt64 minInt64 ∧
    (Item.mk 1 minInt64).Expiration ≤ 1 ∧
    wrapInt64 (minInt64 - 1) = maxInt64 ∧
    ((delayQueue.mk ⟨[⟨1, minInt64⟩]⟩ Timer.stopped 0 []).handleTimeout (fun _ => 1)).expireCh
      = [] ∧
    ((delayQueue.mk ⟨[⟨1, minInt64⟩]⟩ Timer.stopped 0 []).handleTimeout (fun _ => 1)).pq.items
      = [⟨1, minInt64⟩] ∧
    ((delayQueue.mk ⟨[⟨1, minInt64⟩]⟩ Timer.stopped 0 []).handleTimeout (fun _ => 1)).t.isArmed
      = true := by
  decide

namespace System

theorem Offer_footprint (s1 s2 : System) (item : Item) (h : s1.outside = s2.outside) :
    (∀ r, s1.Offer item = some r → r.dq = s1.dq) ∧
    (s1.Offer item).map outside = (s2.Offer item).map outside := by
  simp only [outside, Prod.mk.injEq] at h
  obtain ⟨h1, h2, h3, h4⟩ := h
  constructor
  · intro r hr
    unfold Offer at hr
    split at hr
    · simp only [Option.some.injEq] at hr
      subst hr
      rfl
    · cases hr
  · unfold Offer
    rw [← h2]
    cases s1.offerCh with
    | none => simp [outside, h1, h3, h4]
    | some x => simp

theorem Stop_footprint (s1 s2 : System) (h : s1.outside = s2.outside) :
    (∀ r, s1.Stop = some r → r.dq = s1.dq) ∧
    (s1.Stop).map outside = (s2.Stop).map outside := by
  simp only [outside, Prod.mk.injEq] at h
  obtain ⟨h1, h2, h3, h4⟩ := h
  constructor
  · intro r hr
    unfold Stop at hr
    split at hr
    · simp only [Option.some.injEq] at hr
      subst hr
      rfl
    · cases hr
  · unfold Stop
    rw [← h1]
    by_cases hc : s1.stopCh < 1
    · simp [hc, outside, h2, h3, h4]
    · simp [hc]

theorem Start_footprint (s1 s2 : System) (h : s1.outside = s2.outside) :
    (∀ r, s1.Start = some r → r.dq = s1.dq) ∧
    (s1.Start).map outside = (s2.Start).map outside := by
  simp only [outside, Prod.mk.injEq] at h
  obtain ⟨h1, h2, h3, h4⟩ := h
  constructor
  · intro r hr
    unfold Start at hr
    split at hr
    · simp only [Option.some.injEq] at hr
      subst hr
      rfl
    · simp only [Option.some.injEq] at hr
      subst hr
      rfl
  · unfold Start
    rw [← h3]
    by_cases hc : s1.loop = LoopState.running
    · simp [hc, outside, h1, h2, h3.symm, h4]
    · simp [hc, outside, h1, h2, h4]

theorem step_heap_owner (nowFunc : Nat → Int) (a : Action) (s r : System)
    (h : step nowFunc a s = some r) (hne : r.dq.pq ≠ s.dq.pq) :
    (a = Action.selectOffer ∨ a = Action.selectTimeout) ∧ s.loop = LoopState.running := by
  cases a with
  | callStart =>
    simp only [step] at h
    split at h
    · simp only [Option.some.injEq] at h
      subst h
      exact absurd rfl hne
    · simp only [Option.some.injEq] at h
      subst h
      exact absurd rfl hne
  | callStop =>
    simp only [step] at h
    split at h
    · simp only [Option.some.injEq] at h
      subst h
      exact absurd rfl hne
    · cases h
  | callOffer item =>
    simp only [step] at h
    split at h
    · simp only [Option.some.injEq] at h
      subst h
      exact absurd rfl hne
    · cases h
  | timerFire =>
    simp only [step] at h
    split at h
    · simp only [Option.some.injEq] at h
      subst h
      exact absurd rfl hne
    · cases h
  | selectStop =>
    simp only [step] at h
    split at h
    · split at h
      · simp only [Option.some.injEq] at h
        subst h
        exact absurd rfl hne
      · simp only [Option.some.injEq] at h
        subst h
        exact absurd rfl hne
    · cases h
  | selectOffer =>
    simp only [step] at h
    split at h
    · rename_i hl
      exact ⟨Or.inl rfl, hl⟩
    · cases h
  | selectTimeout =>
    simp only [step] at h
    split at h
    · rename_i hl
      exact ⟨Or.inr rfl, hl.1⟩
    · cases h

end System

/-- C11, as amended. Single-owner state. `Offer`, `Stop` and `Start` are the sends on
the offer and stop channels and the launch of the loop: on two states that agree
outside the heap and the timer they succeed or block alike and have the same effect
outside, and they leave heap, timer and clock count unchanged; `ExpiredCh` only
hands out the output channel. Every change of the heap is made by a `select` case
of the running loop. `Len`, in contrast, returns the length of the heap, which the
caller reads directly. -/
theorem public_operations_footprint (s1 s2 : System) (item : Item)
    (hsame : s1.outside = s2.outside) :
    ((∀ r, s1.Offer item = some r → r.dq = s1.dq) ∧
      (s1.Offer item).map System.outside = (s2.Offer item).map System.outside) ∧
    ((∀ r, s1.Stop = some r → r.dq = s1.dq) ∧
      (s1.Stop).map System.outside = (s2.Stop).map System.outside) ∧
    ((∀ r, s1.Start = some r → r.dq = s1.dq) ∧
      (s1.Start).map System.outside = (s2.Start).map System.outside) ∧
    s1.ExpiredCh = s2.ExpiredCh ∧
    (∀ nowFunc : Nat → Int,
      System.step nowFunc (Action.callOffer item) s1 = s1.Offer item ∧
      System.step nowFunc Action.callStop s1 = s1.Stop ∧
      System.step nowFunc Action.callStart s1 = s1.Start) ∧
    (∀ (nowFunc : Nat → Int) (a : Action) (r : System),
      System.step nowFunc a s1 = some r → r.dq.pq ≠ s1.dq.pq →
      (a = Action.selectOffer ∨ a = Action.selectTimeout) ∧ s1.loop = LoopState.running) ∧
    s1.Len = s1.dq.pq.items.length := by
  refine ⟨System.Offer_footprint s1 s2 item hsame, System.Stop_footprint s1 s2 hsame,
    System.Start_footprint s1 s2 hsame, ?_, ?_, ?_, rfl⟩
  · simp only [System.outside, Prod.mk.injEq] at hsame
    exact hsame.2.2.2
  · intro nowFunc
    exact ⟨rfl, rfl, rfl⟩
  · intro nowFunc a r h hne
    exact System.step_heap_owner nowFunc a s1 r h hne

/-- Witness of C11: a running queue with an empty heap and one with A in the heap
and the timer armed agree outside the heap and the timer, and `Offer` of B has the
same effect outside on both. -/
theorem public_operations_footprint_witness :
    ((System.mk (NewDelayQueue 0) 0 none LoopState.running 0).Offer itemB).map System.outside =
      ((System.mk (delayQueue.mk ⟨[itemA]⟩ (Timer.armed 1100 100000000) 1 []) 0 none
        LoopState.running 0).Offer itemB).map System.outside :=
  (public_operations_footprint (System.mk (NewDelayQueue 0) 0 none LoopState.running 0)
    (System.mk (delayQueue.mk ⟨[itemA]⟩ (Timer.armed 1100 100000000) 1 []) 0 none
      LoopState.running 0) itemB rfl).1.2

/-- Counterexample to C11 as stated. Two states of a running queue agree on the
channels and differ in the heap, empty in one, holding A in the other: `Len()`
returns 0 on one and 1 on the other. What `Len` returns to its caller is read from
the heap itself, not received through a channel. -/
theorem public_operations_counterexample :
    (System.mk (NewDelayQueue 0) 0 none LoopState.running 0).outside =
      (System.mk (delayQueue.mk ⟨[itemA]⟩ (Timer.armed 1100 100000000) 1 []) 0 none
        LoopState.running 0).outside ∧
    (System.mk (NewDelayQueue 0) 0 none LoopState.running 0).Len = 0 ∧
    (System.mk (delayQueue.mk ⟨[itemA]⟩ (Timer.armed 1100 100000000) 1 []) 0 none
      LoopState.running 0).Len = 1 := by
  decide

end DelayWheel
